import Mathlib

/-!
# mapcrafter: the extended INI configuration reader / writer

A shallow embedding of `src/config/extended_ini.cpp` (classes `ConfigSection`
and `ConfigFile`) together with the properties checked against it.

Modelling conventions

* `std::string` is a list of characters (`Str`); `std::vector<T>` is `List T`.
* A `std::istream` is the text still to be read; the `while (std::getline(in, line))`
  loop visits the lines computed by `getlines`.  A `std::ostream` is the text
  written so far.
* `int` indices and counters (`getEntryIndex`, `getSectionIndex`, `section`,
  `linenumber`) are mathematical integers: a wrap-around would need more than
  `2^31 - 1` entries, sections or input lines.
* Member functions that mutate `*this` return the new object.
-/

namespace mapcrafter
namespace config

/-- A `std::string`. -/
abbrev Str := List Char

/-- The `ConfigEntry` typedef: `std::pair<std::string, std::string>`. -/
abbrev ConfigEntry := Str × Str

/-! ## Library and helper functions that are not part of `extended_ini.cpp` -/

/-- The operator `s[i]` of `std::string`: the character at position `i`, and the
null character for `i == s.size()` (C++11). -/
def charAt (s : Str) (i : Nat) : Char := s.getD i (Char.ofNat 0)

/-- The call `s.substr(pos, n)` of `std::string` (for `pos <= s.size()`). -/
def substr (s : Str) (pos n : Nat) : Str := (s.drop pos).take n

/-- The call `s.substr(pos, std::string::npos)`: everything from `pos` on. -/
def substrFrom (s : Str) (pos : Nat) : Str := s.drop pos

/-- The call `s.find(c)` of `std::string`: the first position of `c`, with
`none` for `std::string::npos`. -/
def find : Str → Char → Option Nat
  | [], _ => none
  | x :: xs, c => if x = c then some 0 else (find xs c).map (· + 1)

/-- The characters `util::trim` strips. -/
def isWhitespace (c : Char) : Bool :=
  c = ' ' || c = '\t' || c = '\r' || c = '\n'

/-- Modelled from the spec: `util::trim` (declared in `util.h`, not part of the
sources at hand) strips leading and trailing whitespace from a string; a string
of whitespace only becomes empty. -/
def trim (s : Str) : Str := (s.dropWhile isWhitespace).rdropWhile isWhitespace

/-- Modelled from the spec: `util::str` (declared in `util.h`, not part of the
sources at hand) prints a number in decimal. -/
def str (n : Nat) : Str := Nat.toDigits 10 n

/-- One call of `std::getline(in, line)` on the remaining input `inp`: it fails
(`none`) when no character is left; otherwise it extracts the characters before
the next newline, consumes that newline, and leaves the rest. -/
def getline (inp : Str) : Option (Str × Str) :=
  if inp = [] then none
  else some (inp.takeWhile (· ≠ '\n'), (inp.dropWhile (· ≠ '\n')).drop 1)

/-- The lines that the loop `while (std::getline(in, line))` visits, in order. -/
def getlines : Str → List Str
  | [] => []
  | c :: cs =>
    if c = '\n' then [] :: getlines cs
    else
      match getlines cs with
      | [] => [[c]]
      | l :: ls => (c :: l) :: ls

/-- The kind of a `ValidationMessage`. -/
inductive MessageType where
  | unset
  | info
  | warning
  | error
deriving DecidableEq, Repr

/-- Modelled from the spec: `ValidationMessage` (declared in `validation.h`, not
part of the sources at hand) is a diagnostic with a kind and a text. -/
structure ValidationMessage where
  type : MessageType
  message : Str
deriving DecidableEq, Repr

/-- Modelled from the spec: `ValidationMessage::error(text)` is the error
diagnostic with the given text. -/
def ValidationMessage.error (message : Str) : ValidationMessage :=
  { type := MessageType.error, message := message }

/-- The default constructed `ValidationMessage`. -/
def ValidationMessage.default : ValidationMessage :=
  { type := MessageType.unset, message := [] }

/-! ## ConfigSection -/

/-- The data members of `ConfigSection`. -/
structure ConfigSection where
  type : Str
  name : Str
  entries : List ConfigEntry
deriving DecidableEq, Repr

/-- The loop of `getEntryIndex`, started at index `i` on the entries from `i` on. -/
def getEntryIndexFrom (key : Str) : List ConfigEntry → Nat → Int
  | [], _ => -1
  | e :: es, i => if e.1 = key then (i : Int) else getEntryIndexFrom key es (i + 1)

/-- The assignment `entries[index].second = value`. -/
def assignSecond : List ConfigEntry → Nat → Str → List ConfigEntry
  | [], _, _ => []
  | e :: es, 0, value => (e.1, value) :: es
  | e :: es, i + 1, value => e :: assignSecond es i value

namespace ConfigSection

/-- The constructor `ConfigSection(type, name)`: no entries. -/
def new (type name : Str) : ConfigSection := { type := type, name := name, entries := [] }

/-- The member `getEntryIndex`. -/
def getEntryIndex (s : ConfigSection) (key : Str) : Int :=
  getEntryIndexFrom key s.entries 0

/-- The member `getType`. -/
def getType (s : ConfigSection) : Str := s.type

/-- The member `getName`. -/
def getName (s : ConfigSection) : Str := s.name

/-- The member `isNamed`. -/
def isNamed (s : ConfigSection) : Bool := !s.name.isEmpty

/-- The member `isEmpty`. -/
def isEmpty (s : ConfigSection) : Bool := s.entries.length == 0

/-- The member `has`. -/
def has (s : ConfigSection) (key : Str) : Bool := s.getEntryIndex key != -1

/-- The member `get`. -/
def get (s : ConfigSection) (key default_value : Str) : Str :=
  let index := s.getEntryIndex key
  if index = -1 then default_value
  else (s.entries.getD index.toNat ([], [])).2

/-- The member `getEntries`. -/
def getEntries (s : ConfigSection) : List ConfigEntry := s.entries

/-- The member `set`. -/
def set (s : ConfigSection) (key value : Str) : ConfigSection :=
  let index := s.getEntryIndex key
  if index ≠ -1 then { s with entries := assignSecond s.entries index.toNat value }
  else { s with entries := s.entries ++ [(key, value)] }

/-- The member `remove`. -/
def remove (s : ConfigSection) (key : Str) : ConfigSection :=
  let index := s.getEntryIndex key
  if index ≠ -1 then { s with entries := s.entries.eraseIdx index.toNat }
  else s

/-- The header part of `operator<<` for a section: what is written before the
entries. -/
def printHeader (out : Str) (s : ConfigSection) : Str :=
  if s.getName ≠ [] then
    if s.getType = [] then out ++ ['['] ++ s.getName ++ [']'] ++ ['\n']
    else out ++ ['['] ++ s.getType ++ [':'] ++ s.getName ++ [']'] ++ ['\n']
  else out

/-- The entry loop of `operator<<` for a section. -/
def printEntries (out : Str) : List ConfigEntry → Str
  | [] => out
  | e :: es => printEntries (out ++ e.1 ++ [' ', '=', ' '] ++ e.2 ++ ['\n']) es

/-- The `operator<<(std::ostream&, const ConfigSection&)`; `std::endl` writes a
newline. -/
def print (out : Str) (s : ConfigSection) : Str :=
  printEntries (printHeader out s) s.getEntries

end ConfigSection

/-! ## ConfigFile -/

/-- The data members of `ConfigFile` (the constant member `empty_section`, which
no member changes, is `ConfigFile.empty_section`). -/
structure ConfigFile where
  root : ConfigSection
  sections : List ConfigSection
deriving DecidableEq, Repr

/-- The loop of `getSectionIndex`, started at index `i` on the sections from `i` on. -/
def getSectionIndexFrom (type name : Str) : List ConfigSection → Nat → Int
  | [], _ => -1
  | s :: ss, i =>
    if s.getType = type ∧ s.getName = name then (i : Int)
    else getSectionIndexFrom type name ss (i + 1)

/-- The call `sections[index].set(key, value)`. -/
def setInSection : List ConfigSection → Nat → Str → Str → List ConfigSection
  | [], _, _, _ => []
  | s :: ss, 0, key, value => s.set key value :: ss
  | s :: ss, i + 1, key, value => s :: setInSection ss i key value

/-- The `for` loop in the entry branch of `load`, at index `i` with `fuel`
iterations left before `i < line.size()` fails: `some (key, value)` when the loop
ends normally (by `break`, or without any iteration), `none` when it leaves
through `return false`. -/
def entryLoop (line : Str) (i : Nat) : Nat → Option (Str × Str)
  | 0 => some ([], [])
  | fuel + 1 =>
    if charAt line i = '=' then
      some (substr line 0 i, substr line (i + 1) (line.length - i - 1))
    else if i = line.length - 1 then none
    else entryLoop line (i + 1) fuel

/-- The state of `load` between two iterations of its loop: the object, the
locals `section` and `linenumber`, and the reference parameter `msg`. -/
structure LoadState where
  file : ConfigFile
  section_ : Int
  linenumber : Nat
  msg : ValidationMessage
deriving DecidableEq, Repr

namespace ConfigFile

/-- The constructor `ConfigFile()`: an unnamed root without entries, no sections. -/
def new : ConfigFile := { root := ConfigSection.new [] [], sections := [] }

/-- The constant member `empty_section`. -/
def empty_section : ConfigSection := ConfigSection.new [] []

/-- The member `getSectionIndex`. -/
def getSectionIndex (f : ConfigFile) (type name : Str) : Int :=
  getSectionIndexFrom type name f.sections 0

/-- The body of the `while` loop of `load` for one line: `true` when the loop
goes on, `false` for `return false`. -/
def loadLine (st : LoadState) (line : Str) : Bool × LoadState :=
  let st := { st with linenumber := st.linenumber + 1 }
  if line = [] then (true, st)
  else
    let line := trim line
    if charAt line 0 = '#' then (true, st)
    else if charAt line 0 = '[' then
      if charAt line (line.length - 1) ≠ ']' then
        let text := "Expecting ']' at end of line ".toList ++ str st.linenumber ++ ".".toList
        (false, { st with msg := ValidationMessage.error text })
      else
        let section_name := substr line 1 (line.length - 2)
        let tn : Str × Str :=
          match find section_name ':' with
          | none => ([], section_name)
          | some colon => (substr section_name 0 colon, substrFrom section_name (colon + 1))
        if tn.2 = [] then
          let text := "Invalid section name on line ".toList ++ str st.linenumber ++ ".".toList
          (false, { st with msg := ValidationMessage.error text })
        else
          let sections := st.file.sections ++ [ConfigSection.new tn.1 tn.2]
          (true, { st with section_ := st.section_ + 1, file := { st.file with sections := sections } })
    else
      match entryLoop line 0 line.length with
      | none =>
        let text := "No '=' found on line ".toList ++ str st.linenumber ++ ".".toList
        (false, { st with msg := ValidationMessage.error text })
      | some kv =>
        let key := trim kv.1
        let value := trim kv.2
        if st.section_ = -1 then
          (true, { st with file := { st.file with root := st.file.root.set key value } })
        else
          let sections := setInSection st.file.sections st.section_.toNat key value
          (true, { st with file := { st.file with sections := sections } })

/-- The `while` loop of `load` over the lines still to be read. -/
def loadLoop : List Str → LoadState → Bool × LoadState
  | [], st => (true, st)
  | line :: rest, st =>
    match loadLine st line with
    | (true, st') => loadLoop rest st'
    | (false, st') => (false, st')

/-- The member `load(std::istream& in, ValidationMessage& msg)`: the return
value, the object afterwards, and `msg` afterwards. -/
def load (f : ConfigFile) (inp : Str) (msg : ValidationMessage) :
    Bool × ConfigFile × ValidationMessage :=
  let r := loadLoop (getlines inp) { file := f, section_ := -1, linenumber := 0, msg := msg }
  (r.1, r.2.file, r.2.msg)

/-- The loop of `write` over the sections. -/
def writeSections (out : Str) : List ConfigSection → Str
  | [] => out
  | s :: ss =>
    if s.isNamed then writeSections (s.print out ++ ['\n']) ss
    else writeSections out ss

/-- The member `write(std::ostream& out)`: the return value and the stream
contents afterwards. -/
def write (f : ConfigFile) (out : Str) : Bool × Str :=
  let out := if !f.root.isEmpty then f.root.print out ++ ['\n'] else out
  (true, writeSections out f.sections)

/-- The member `hasSection`. -/
def hasSection (f : ConfigFile) (type name : Str) : Bool :=
  f.getSectionIndex type name != -1

/-- The member `getRootSection`. -/
def getRootSection (f : ConfigFile) : ConfigSection := f.root

/-- The member `getSections`. -/
def getSections (f : ConfigFile) : List ConfigSection := f.sections

/-- The const member `getSection(type, name)`. -/
def getSectionConst (f : ConfigFile) (type name : Str) : ConfigSection :=
  let index := f.getSectionIndex type name
  if index = -1 then empty_section
  else f.sections.getD index.toNat empty_section

/-- The non-const member `getSection(type, name)`: the object afterwards (the
returned reference designates the found or the appended section). -/
def getSection (f : ConfigFile) (type name : Str) : ConfigFile :=
  let index := f.getSectionIndex type name
  if index ≠ -1 then f
  else { f with sections := f.sections ++ [ConfigSection.new type name] }

/-- The member `addSection(type, name)`. -/
def addSection (f : ConfigFile) (type name : Str) : ConfigFile :=
  f.getSection type name

/-- The member `addSection(const ConfigSection&)`. -/
def addSectionCopy (f : ConfigFile) (s : ConfigSection) : ConfigFile :=
  let index := f.getSectionIndex s.getType s.getName
  if index = -1 then { f with sections := f.sections ++ [s] }
  else { f with sections := f.sections.set index.toNat s }

/-- The member `removeSection`.  For `index == -1` the call
`sections.erase(sections.begin() + index)` erases at an iterator before the
beginning of the vector, which has no defined behaviour: `none`.  For any other
index the body does nothing. -/
def removeSection (f : ConfigFile) (type name : Str) : Option ConfigFile :=
  let index := f.getSectionIndex type name
  if index = -1 then none
  else some f

end ConfigFile

end config
end mapcrafter

/-! ## Notions used in the statements -/

namespace mapcrafter
namespace config

/-- A string without leading and without trailing whitespace. -/
def Trimmed (s : Str) : Prop :=
  (∀ c, s.head? = some c → isWhitespace c = false) ∧
    (∀ c, s.getLast? = some c → isWhitespace c = false)

/-- The type part of a header body: the text before its first colon, and the
empty string when the body has no colon. -/
def typePart (body : Str) : Str :=
  if ':' ∈ body then body.takeWhile (· ≠ ':') else []

/-- The name part of a header body: the text after its first colon, and all of
the body when it has no colon. -/
def namePart (body : Str) : Str :=
  if ':' ∈ body then (body.dropWhile (· ≠ ':')).drop 1 else body

/-- The value of the first entry of an entry list whose key is `key`, if any. -/
def firstValue (key : Str) : List ConfigEntry → Option Str
  | [] => none
  | e :: es => if e.1 = key then some e.2 else firstValue key es

/-- The keys of the entries of a section, in entry order. -/
def ConfigSection.keys (s : ConfigSection) : List Str := s.entries.map Prod.fst

/-- The sections that can be built from a freshly constructed section by calls
of `set` and `remove`. -/
inductive SectionReachable : ConfigSection → Prop where
  | new (type name : Str) : SectionReachable (ConfigSection.new type name)
  | set (s : ConfigSection) (key value : Str) :
      SectionReachable s → SectionReachable (s.set key value)
  | remove (s : ConfigSection) (key : Str) :
      SectionReachable s → SectionReachable (s.remove key)

/-- A key and a value as an entry line can store them: both trimmed and free of
newlines, the key free of equals signs and not starting like a comment or a
header. -/
def StoredEntry (k v : Str) : Prop :=
  Trimmed k ∧ Trimmed v ∧ '\n' ∉ k ∧ '\n' ∉ v ∧ '=' ∉ k ∧
    k.head? ≠ some '#' ∧ k.head? ≠ some '['

/-- A type and a name as a header line can store them: the name non-empty, the
type free of colons, both free of newlines. -/
def StoredHeader (t n : Str) : Prop :=
  n ≠ [] ∧ ':' ∉ t ∧ '\n' ∉ t ∧ '\n' ∉ n

/-- The identities `(type, name)` of the stored sections, in stored order. -/
def ConfigFile.ids (f : ConfigFile) : List (Str × Str) :=
  f.sections.map (fun s => (s.type, s.name))

/-- The `ConfigFile` objects that can be built from a freshly constructed one by
calls of `load` (successful or not), of the non-const `getSection`, of both
overloads of `addSection`, and of `removeSection` where that call has defined
behaviour. -/
inductive FileReachable : ConfigFile → Prop where
  | new : FileReachable ConfigFile.new
  | load (f : ConfigFile) (inp : Str) (msg : ValidationMessage) :
      FileReachable f → FileReachable (f.load inp msg).2.1
  | getSection (f : ConfigFile) (type name : Str) :
      FileReachable f → FileReachable (f.getSection type name)
  | addSection (f : ConfigFile) (type name : Str) :
      FileReachable f → FileReachable (f.addSection type name)
  | addSectionCopy (f : ConfigFile) (s : ConfigSection) :
      FileReachable f → FileReachable (f.addSectionCopy s)
  | removeSection (f g : ConfigFile) (type name : Str) :
      FileReachable f → f.removeSection type name = some g → FileReachable g

/-- The `ConfigFile` objects that can be built like those of `FileReachable`, but
with `getSection` and `addSection` called for non-empty section names only. -/
inductive FileReachableNamed : ConfigFile → Prop where
  | new : FileReachableNamed ConfigFile.new
  | load (f : ConfigFile) (inp : Str) (msg : ValidationMessage) :
      FileReachableNamed f → FileReachableNamed (f.load inp msg).2.1
  | getSection (f : ConfigFile) (type name : Str) :
      FileReachableNamed f → name ≠ [] → FileReachableNamed (f.getSection type name)
  | addSection (f : ConfigFile) (type name : Str) :
      FileReachableNamed f → name ≠ [] → FileReachableNamed (f.addSection type name)
  | addSectionCopy (f : ConfigFile) (s : ConfigSection) :
      FileReachableNamed f → s.name ≠ [] → FileReachableNamed (f.addSectionCopy s)
  | removeSection (f g : ConfigFile) (type name : Str) :
      FileReachableNamed f → f.removeSection type name = some g → FileReachableNamed g

/-- A line that is not empty and consists of whitespace only. -/
def WhitespaceOnly (line : Str) : Prop :=
  line ≠ [] ∧ ∀ c ∈ line, isWhitespace c = true

instance (line : Str) : Decidable (WhitespaceOnly line) := by
  unfold WhitespaceOnly; infer_instance

/-- Defect (i): the trimmed line starts with an opening bracket but does not end
with a closing bracket. -/
def MissingBracket (line : Str) : Prop :=
  (trim line).head? = some '[' ∧ (trim line).getLast? ≠ some ']'

/-- Defect (ii): the trimmed line is a bracketed header whose name part is empty. -/
def EmptySectionName (line : Str) : Prop :=
  ∃ body, trim line = '[' :: body ++ [']'] ∧ namePart body = []

/-- Defect (iii): the trimmed line does not start with an opening bracket and
contains no equals sign. -/
def MissingEquals (line : Str) : Prop :=
  (trim line).head? ≠ some '[' ∧ '=' ∉ trim line

/-- A defective line: it is not empty, after trimming it does not start with the
comment character, and it has one of the three defects. -/
def Defective (line : Str) : Prop :=
  line ≠ [] ∧ (trim line).head? ≠ some '#' ∧
    (MissingBracket line ∨ EmptySectionName line ∨ MissingEquals line)

/-- The text between the brackets of the header line of a section: `type:name`,
or `name` when the type is empty. -/
def headerBody (s : ConfigSection) : Str :=
  if s.type = [] then s.name else s.type ++ ':' :: s.name

/-- The section that `load` builds from the written block of a section: the type
and the name are split again from the text between the brackets. -/
def reparsed (s : ConfigSection) : ConfigSection :=
  { type := typePart (headerBody s), name := namePart (headerBody s), entries := s.entries }

/-- What `load` leaves in a section: entries as entry lines store them, with
pairwise different keys. -/
def LoadedEntries (s : ConfigSection) : Prop :=
  (∀ e ∈ s.entries, StoredEntry e.1 e.2) ∧ s.keys.Nodup

/-- What `load` leaves in an initially empty `ConfigFile`: an unnamed root, and
sections with a type and a name as header lines store them. -/
def LoadedFile (f : ConfigFile) : Prop :=
  (f.root.type = [] ∧ f.root.name = [] ∧ LoadedEntries f.root) ∧
    ∀ s ∈ f.sections, StoredHeader s.type s.name ∧ LoadedEntries s

/-- The header line of a named section: `[type:name]`, or `[name]` when the type
is empty. -/
def headerLine (s : ConfigSection) : Str :=
  if s.type = [] then ['['] ++ s.name ++ [']']
  else ['['] ++ s.type ++ [':'] ++ s.name ++ [']']

/-- The line `key = value` of an entry. -/
def entryLine (e : ConfigEntry) : Str := e.1 ++ [' ', '=', ' '] ++ e.2

/-- The block of a named section: its header line, one line per entry in entry
order, and one empty line. -/
def sectionBlock (s : ConfigSection) : List Str :=
  headerLine s :: (s.entries.map entryLine ++ [[]])

/-- The block of the root section: absent when the root has no entry, and
otherwise one line per entry followed by one empty line, without a header. -/
def rootBlock (root : ConfigSection) : List Str :=
  if root.entries = [] then [] else root.entries.map entryLine ++ [[]]

/-- The lines of the written text: the root block, then the block of every named
section in stored order. -/
def writtenLines (f : ConfigFile) : List Str :=
  rootBlock f.root ++ ((f.sections.filter (fun s => s.name ≠ [])).map sectionBlock).flatten

/-- The text made of the given lines, each one ended by a newline. -/
def unlines (ls : List Str) : Str := (ls.map (· ++ ['\n'])).flatten

/-- The diagnostic text for a header line without closing bracket on line `n`. -/
def expectingBracketText (n : Nat) : Str :=
  "Expecting ']' at end of line ".toList ++ str n ++ ".".toList

/-- The diagnostic text for a header with an empty section name on line `n`. -/
def invalidNameText (n : Nat) : Str :=
  "Invalid section name on line ".toList ++ str n ++ ".".toList

/-- The diagnostic text for an entry line without equals sign on line `n`. -/
def noEqualsText (n : Nat) : Str :=
  "No '=' found on line ".toList ++ str n ++ ".".toList

/-- The loop state after a line that is skipped: only the line counter moves. -/
def LoadState.skip (st : LoadState) : LoadState :=
  { st with linenumber := st.linenumber + 1 }

/-- The loop state after a line that is rejected with the diagnostic `text`. -/
def LoadState.reject (st : LoadState) (text : Str) : LoadState :=
  { st with linenumber := st.linenumber + 1, msg := ValidationMessage.error text }

/-- The loop state after a header line: a new section is appended and becomes
the current one. -/
def LoadState.openSection (st : LoadState) (type name : Str) : LoadState :=
  { st with
    linenumber := st.linenumber + 1
    section_ := st.section_ + 1
    file := { st.file with sections := st.file.sections ++ [ConfigSection.new type name] } }

/-- The loop state after an entry line: the entry is set in the root section
when no header has been read, and in the section with index `section` otherwise. -/
def LoadState.put (st : LoadState) (key value : Str) : LoadState :=
  if st.section_ = -1 then
    { st with
      linenumber := st.linenumber + 1
      file := { st.file with root := st.file.root.set key value } }
  else
    { st with
      linenumber := st.linenumber + 1
      file := { st.file with
        sections := setInSection st.file.sections st.section_.toNat key value } }

end config
end mapcrafter

/-! ## Properties -/

namespace mapcrafter
namespace config

/-! ### The entry list of a section -/

theorem getEntryIndexFrom_succ (key : Str) (es : List ConfigEntry) (i : Nat) :
    getEntryIndexFrom key es (i + 1) =
      if getEntryIndexFrom key es i = -1 then -1 else getEntryIndexFrom key es i + 1 := by
  induction es generalizing i with
  | nil => simp [getEntryIndexFrom]
  | cons e es ih =>
    simp only [getEntryIndexFrom]
    by_cases h : e.1 = key
    · simp only [h, if_true]
      have : ((i : Int)) ≠ -1 := by omega
      simp [this]
    · simp only [h, if_false]
      rw [ih (i + 1)]

theorem getEntryIndexFrom_bounds (key : Str) (es : List ConfigEntry) (i : Nat) :
    getEntryIndexFrom key es i = -1 ∨
      ((i : Int) ≤ getEntryIndexFrom key es i ∧
        getEntryIndexFrom key es i < (i : Int) + es.length) := by
  induction es generalizing i with
  | nil => simp [getEntryIndexFrom]
  | cons e es ih =>
    simp only [getEntryIndexFrom]
    by_cases h : e.1 = key
    · simp only [h, if_true, List.length_cons]
      right; omega
    · simp only [h, if_false, List.length_cons]
      rcases ih (i + 1) with h1 | h1
      · left; exact h1
      · right; push_cast at h1 ⊢; omega

theorem getEntryIndexFrom_eq_neg_one_iff (key : Str) (es : List ConfigEntry) (i : Nat) :
    getEntryIndexFrom key es i = -1 ↔ ∀ e ∈ es, e.1 ≠ key := by
  induction es generalizing i with
  | nil => simp [getEntryIndexFrom]
  | cons e es ih =>
    simp only [getEntryIndexFrom]
    by_cases h : e.1 = key
    · simp only [h, if_true]
      constructor
      · intro h1; omega
      · intro h1; exact absurd h (h1 e (List.mem_cons_self _ _))
    · simp only [h, if_false, ih (i + 1), List.mem_cons, forall_eq_or_imp]
      simp [h]

/-- The value of the first entry with the given key, if there is one. -/
theorem getEntryIndex_cons (e : ConfigEntry) (es : List ConfigEntry) (t n key : Str) :
    (ConfigSection.mk t n (e :: es)).getEntryIndex key =
      if e.1 = key then 0
      else if (ConfigSection.mk t n es).getEntryIndex key = -1 then -1
      else (ConfigSection.mk t n es).getEntryIndex key + 1 := by
  simp only [ConfigSection.getEntryIndex, getEntryIndexFrom]
  by_cases h : e.1 = key
  · simp [h]
  · simp only [h, if_false]
    exact getEntryIndexFrom_succ key es 0

theorem getEntryIndex_nonneg (s : ConfigSection) (key : Str) :
    s.getEntryIndex key = -1 ∨ 0 ≤ s.getEntryIndex key := by
  rcases getEntryIndexFrom_bounds key s.entries 0 with h | h
  · left; exact h
  · right; exact h.1

end config
end mapcrafter

namespace mapcrafter
namespace config

theorem getEntryIndexFrom_append_hit (key v : Str) (pre post : List ConfigEntry) (i : Nat)
    (hpre : ∀ e ∈ pre, e.1 ≠ key) :
    getEntryIndexFrom key (pre ++ (key, v) :: post) i = (i : Int) + pre.length := by
  induction pre generalizing i with
  | nil => simp [getEntryIndexFrom]
  | cons e pre ih =>
    have he : e.1 ≠ key := hpre e (List.mem_cons_self _ _)
    have hrest : ∀ e ∈ pre, e.1 ≠ key := fun x hx => hpre x (List.mem_cons_of_mem _ hx)
    have h1 := ih (i + 1) hrest
    rw [List.cons_append]
    simp only [getEntryIndexFrom, he, if_false, List.length_cons]
    rw [h1]
    push_cast; omega

theorem exists_first_entry (key : Str) (es : List ConfigEntry) (h : ∃ e ∈ es, e.1 = key) :
    ∃ pre v post, es = pre ++ (key, v) :: post ∧ ∀ e ∈ pre, e.1 ≠ key := by
  induction es with
  | nil => simp at h
  | cons e es ih =>
    by_cases he : e.1 = key
    · refine ⟨[], e.2, es, ?_, by simp⟩
      cases e; simp_all
    · have h' : ∃ e ∈ es, e.1 = key := by
        obtain ⟨x, hx, hk⟩ := h
        rcases List.mem_cons.1 hx with rfl | hx
        · exact absurd hk he
        · exact ⟨x, hx, hk⟩
      obtain ⟨pre, v, post, hes, hpre⟩ := ih h'
      refine ⟨e :: pre, v, post, by simp [hes], ?_⟩
      intro x hx
      rcases List.mem_cons.1 hx with rfl | hx
      · exact he
      · exact hpre x hx

theorem assignSecond_append (pre post : List ConfigEntry) (k v0 v : Str) :
    assignSecond (pre ++ (k, v0) :: post) pre.length v = pre ++ (k, v) :: post := by
  induction pre with
  | nil => simp [assignSecond]
  | cons e pre ih => simp [assignSecond, ih]

/-- A section without an entry for `key`: every lookup misses, `set` appends. -/
theorem section_miss (s : ConfigSection) (key : Str) (h : ∀ e ∈ s.entries, e.1 ≠ key) :
    s.getEntryIndex key = -1 ∧ s.has key = false ∧ (∀ d, s.get key d = d) ∧
      (∀ v, s.set key v = { s with entries := s.entries ++ [(key, v)] }) ∧
      s.remove key = s := by
  have hi : s.getEntryIndex key = -1 := (getEntryIndexFrom_eq_neg_one_iff key s.entries 0).2 h
  refine ⟨hi, ?_, ?_, ?_, ?_⟩
  · simp [ConfigSection.has, hi]
  · intro d; simp [ConfigSection.get, hi]
  · intro v; simp [ConfigSection.set, hi]
  · simp [ConfigSection.remove, hi]

/-- A section whose first entry for `key` is `(key, v0)`: lookups hit it, `set`
overwrites its value, `remove` erases it. -/
theorem section_hit (s : ConfigSection) (key v0 : Str) (pre post : List ConfigEntry)
    (hs : s.entries = pre ++ (key, v0) :: post) (hpre : ∀ e ∈ pre, e.1 ≠ key) :
    s.getEntryIndex key = pre.length ∧ s.has key = true ∧ (∀ d, s.get key d = v0) ∧
      (∀ v, s.set key v = { s with entries := pre ++ (key, v) :: post }) ∧
      s.remove key = { s with entries := pre ++ post } := by
  have hi : s.getEntryIndex key = pre.length := by
    have := getEntryIndexFrom_append_hit key v0 pre post 0 hpre
    simpa [ConfigSection.getEntryIndex, hs] using this
  have hne : ((pre.length : Nat) : Int) ≠ -1 := by omega
  refine ⟨hi, ?_, ?_, ?_, ?_⟩
  · simp [ConfigSection.has, hi, hne]
  · intro d
    simp [ConfigSection.get, hi, hne, hs, List.getD_eq_getElem?_getD, List.getElem_append_right]
  · intro v
    simp only [ConfigSection.set, hi, hne, ne_eq, not_false_eq_true, if_true, Int.toNat_ofNat, hs,
      assignSecond_append]
  · simp only [ConfigSection.remove, hi, hne, ne_eq, not_false_eq_true, if_true, Int.toNat_ofNat,
      hs]
    congr 1
    simp [List.eraseIdx_append_of_length_le]

/-- Every section either misses `key` or splits at its first entry for `key`. -/
theorem section_cases (s : ConfigSection) (key : Str) :
    (∀ e ∈ s.entries, e.1 ≠ key) ∨
      ∃ pre v0 post, s.entries = pre ++ (key, v0) :: post ∧ ∀ e ∈ pre, e.1 ≠ key := by
  by_cases h : ∃ e ∈ s.entries, e.1 = key
  · right; exact exists_first_entry key s.entries h
  · left
    intro e he hk
    exact h ⟨e, he, hk⟩

end config
end mapcrafter

namespace mapcrafter
namespace config

/-! ### Trimming -/

theorem rdropWhile_append_of_pos (x r : Str) (p : Char → Bool) (hr : ∀ c ∈ r, p c = true) :
    (x ++ r).rdropWhile p = x.rdropWhile p := by
  induction r using List.reverseRecOn with
  | nil => simp
  | append_singleton r c ih =>
    have hc : p c = true := hr c (by simp)
    rw [← List.append_assoc, List.rdropWhile_concat_pos _ _ _ hc]
    exact ih (fun d hd => hr d (by simp [hd]))

/-- Whitespace around a text that starts and ends with a non-whitespace character
is what `trim` removes. -/
theorem trim_core (l x r : Str) (hl : ∀ c ∈ l, isWhitespace c = true)
    (hr : ∀ c ∈ r, isWhitespace c = true) (hx : x ≠ [])
    (hhead : ∀ c, x.head? = some c → isWhitespace c = false)
    (hlast : ∀ c, x.getLast? = some c → isWhitespace c = false) :
    trim (l ++ x ++ r) = x := by
  unfold trim
  rw [List.append_assoc, List.dropWhile_append_of_pos hl]
  obtain ⟨a, x', rfl⟩ := List.exists_cons_of_ne_nil hx
  have ha : isWhitespace a = false := hhead a rfl
  rw [List.cons_append, List.dropWhile_cons_of_neg (by simp [ha]), ← List.cons_append,
    rdropWhile_append_of_pos _ _ _ hr, List.rdropWhile_eq_self_iff]
  intro hne
  have := hlast ((a :: x').getLast hne) (List.getLast?_eq_getLast _ hne)
  simp [this]

theorem trim_nil : trim [] = [] := by simp [trim]

theorem trim_of_trimmed (s : Str) (h : Trimmed s) : trim s = s := by
  by_cases hs : s = []
  · subst hs; exact trim_nil
  · have := trim_core [] s [] (by simp) (by simp) hs h.1 h.2
    simpa using this

theorem trimmed_trim (s : Str) : Trimmed (trim s) := by
  constructor
  · intro c hc
    unfold trim at hc
    have hpre : (s.dropWhile isWhitespace).rdropWhile isWhitespace <+: s.dropWhile isWhitespace :=
      List.rdropWhile_prefix _ _
    obtain ⟨t, ht⟩ := hpre
    cases hd : (s.dropWhile isWhitespace).rdropWhile isWhitespace with
    | nil => rw [hd] at hc; simp at hc
    | cons a rest =>
      rw [hd] at hc ht
      have hca : a = c := by simpa using hc
      subst hca
      have h2 := List.head?_dropWhile_not isWhitespace s
      rw [← ht] at h2
      simpa using h2
  · intro c hc
    unfold trim at hc
    by_cases hne : (s.dropWhile isWhitespace).rdropWhile isWhitespace = []
    · rw [hne] at hc; simp at hc
    · have h1 := List.rdropWhile_last_not isWhitespace _ hne
      rw [List.getLast?_eq_getLast _ hne] at hc
      have : ((s.dropWhile isWhitespace).rdropWhile isWhitespace).getLast hne = c := by
        simpa using hc
      rw [this] at h1
      simpa using h1

theorem trim_trim (s : Str) : trim (trim s) = trim s :=
  trim_of_trimmed _ (trimmed_trim s)

theorem trimmed_iff (s : Str) : Trimmed s ↔ trim s = s :=
  ⟨trim_of_trimmed s, fun h => h ▸ trimmed_trim s⟩

theorem rdropWhile_append_rtakeWhile (p : Char → Bool) (l : Str) :
    l.rdropWhile p ++ l.rtakeWhile p = l := by
  simp only [List.rdropWhile, List.rtakeWhile, ← List.reverse_append,
    List.takeWhile_append_dropWhile, List.reverse_reverse]

/-- Every string is its trimmed text with whitespace before and after. -/
theorem trim_decomp (s : Str) :
    ∃ l r : Str, s = l ++ trim s ++ r ∧ (∀ c ∈ l, isWhitespace c = true) ∧
      ∀ c ∈ r, isWhitespace c = true := by
  refine ⟨s.takeWhile isWhitespace, (s.dropWhile isWhitespace).rtakeWhile isWhitespace, ?_, ?_, ?_⟩
  · unfold trim
    rw [List.append_assoc, rdropWhile_append_rtakeWhile, List.takeWhile_append_dropWhile]
  · intro c hc; exact List.mem_takeWhile_imp hc
  · intro c hc; exact List.mem_rtakeWhile_imp hc

theorem mem_trim (s : Str) (c : Char) (h : c ∈ trim s) : c ∈ s := by
  obtain ⟨l, r, hs, _, _⟩ := trim_decomp s
  rw [hs]; simp [h]

theorem mem_trim_iff (s : Str) (c : Char) (hc : isWhitespace c = false) : c ∈ trim s ↔ c ∈ s := by
  refine ⟨mem_trim s c, fun h => ?_⟩
  obtain ⟨l, r, hs, hl, hr⟩ := trim_decomp s
  rw [hs] at h
  rcases List.mem_append.1 h with h | h
  · rcases List.mem_append.1 h with h | h
    · rw [hl c h] at hc; cases hc
    · exact h
  · rw [hr c h] at hc; cases hc

theorem trim_eq_nil_iff (s : Str) : trim s = [] ↔ ∀ c ∈ s, isWhitespace c = true := by
  constructor
  · intro h c hc
    obtain ⟨l, r, hs, hl, hr⟩ := trim_decomp s
    rw [hs, h] at hc
    rcases List.mem_append.1 hc with h1 | h1
    · exact hl c (by simpa using h1)
    · exact hr c h1
  · intro h
    unfold trim
    rw [(List.dropWhile_eq_nil_iff).2 h]
    simp

end config
end mapcrafter

namespace mapcrafter
namespace config

/-! ### Searching and splitting strings -/

theorem find_eq_none_iff (s : Str) (c : Char) : find s c = none ↔ c ∉ s := by
  induction s with
  | nil => simp [find]
  | cons x xs ih =>
    by_cases h : x = c
    · simp [find, h]
    · have h' : ¬ c = x := fun e => h e.symm
      simp [find, h, h', ih]

theorem find_split (a b : Str) (c : Char) (ha : c ∉ a) :
    find (a ++ c :: b) c = some a.length := by
  induction a with
  | nil => simp [find]
  | cons x xs ih =>
    have hx : x ≠ c := fun e => ha (by simp [e])
    have hxs : c ∉ xs := fun e => ha (by simp [e])
    rw [List.cons_append]
    simp [find, hx, ih hxs]

theorem exists_split_of_mem (s : Str) (c : Char) (h : c ∈ s) :
    ∃ a b, s = a ++ c :: b ∧ c ∉ a := by
  induction s with
  | nil => simp at h
  | cons x xs ih =>
    by_cases hx : x = c
    · exact ⟨[], xs, by simp [hx], by simp⟩
    · have : c ∈ xs := by
        rcases List.mem_cons.1 h with e | e
        · exact absurd e.symm hx
        · exact e
      obtain ⟨a, b, hs, ha⟩ := ih this
      refine ⟨x :: a, b, by simp [hs], ?_⟩
      intro hm
      rcases List.mem_cons.1 hm with e | e
      · exact hx e.symm
      · exact ha e

theorem takeWhile_ne_split (a b : Str) (c : Char) (ha : c ∉ a) :
    (a ++ c :: b).takeWhile (· ≠ c) = a ∧ (a ++ c :: b).dropWhile (· ≠ c) = c :: b := by
  induction a with
  | nil => simp
  | cons x xs ih =>
    have hx : x ≠ c := fun e => ha (by simp [e])
    have hxs : c ∉ xs := fun e => ha (by simp [e])
    obtain ⟨h1, h2⟩ := ih hxs
    constructor
    · rw [List.cons_append, List.takeWhile_cons_of_pos (by simpa using hx), h1]
    · rw [List.cons_append, List.dropWhile_cons_of_pos (by simpa using hx), h2]

theorem typePart_split (a b : Str) (ha : ':' ∉ a) : typePart (a ++ ':' :: b) = a := by
  unfold typePart
  rw [if_pos (by simp), (takeWhile_ne_split a b ':' ha).1]

theorem namePart_split (a b : Str) (ha : ':' ∉ a) : namePart (a ++ ':' :: b) = b := by
  unfold namePart
  rw [if_pos (by simp), (takeWhile_ne_split a b ':' ha).2]
  rfl

theorem typePart_of_not_mem (s : Str) (h : ':' ∉ s) : typePart s = [] := by
  simp [typePart, h]

theorem namePart_of_not_mem (s : Str) (h : ':' ∉ s) : namePart s = s := by
  simp [namePart, h]

theorem typePart_no_colon (s : Str) : ':' ∉ typePart s := by
  by_cases h : ':' ∈ s
  · obtain ⟨a, b, hs, ha⟩ := exists_split_of_mem s ':' h
    rw [hs, typePart_split a b ha]; exact ha
  · rw [typePart_of_not_mem s h]; simp

/-- The type and name that `load` computes from the text between the brackets. -/
theorem header_split (body : Str) :
    (match find body ':' with
      | none => (([] : Str), body)
      | some colon => (substr body 0 colon, substrFrom body (colon + 1))) =
      (typePart body, namePart body) := by
  by_cases h : ':' ∈ body
  · obtain ⟨a, b, hs, ha⟩ := exists_split_of_mem body ':' h
    rw [hs, find_split a b ':' ha, typePart_split a b ha, namePart_split a b ha]
    simp [substr, substrFrom]
  · rw [(find_eq_none_iff body ':').2 h, typePart_of_not_mem body h, namePart_of_not_mem body h]

theorem charAt_cons_zero (c : Char) (s : Str) : charAt (c :: s) 0 = c := by
  simp [charAt]

theorem charAt_nil (i : Nat) : charAt [] i = Char.ofNat 0 := by
  simp [charAt]

theorem charAt_append_right (a : Str) (c : Char) (b : Str) : charAt (a ++ c :: b) a.length = c := by
  simp [charAt, List.getD_eq_getElem?_getD, List.getElem_append_right]

theorem charAt_mem (s : Str) (i : Nat) (h : i < s.length) : charAt s i ∈ s := by
  simp [charAt, List.getD_eq_getElem?_getD, List.getElem?_eq_getElem h]

theorem charAt_last (a : Str) (c : Char) : charAt (a ++ [c]) ((a ++ [c]).length - 1) = c := by
  have : (a ++ [c]).length - 1 = a.length := by simp
  rw [this]; exact charAt_append_right a c []

/-- The `for` loop of the entry branch on a line with an equals sign: it stops at
the first one. -/
theorem entryLoop_split (k v : Str) (hk : '=' ∉ k) :
    entryLoop (k ++ '=' :: v) 0 (k ++ '=' :: v).length = some (k, v) := by
  have key : ∀ d j, j + d = k.length →
      entryLoop (k ++ '=' :: v) j ((k ++ '=' :: v).length - j) = some (k, v) := by
    intro d
    induction d with
    | zero =>
      intro j hj
      have hj' : j = k.length := by omega
      subst hj'
      have hf : (k ++ '=' :: v).length - k.length = v.length + 1 := by simp
      rw [hf, entryLoop, charAt_append_right]
      simp [substr]
    | succ d ih =>
      intro j hj
      have hlt : j < k.length := by omega
      have hf : (k ++ '=' :: v).length - j = ((k ++ '=' :: v).length - (j + 1)) + 1 := by
        simp; omega
      have hc : charAt (k ++ '=' :: v) j ≠ '=' := by
        have : charAt (k ++ '=' :: v) j = k[j] := by
          simp [charAt, List.getD_eq_getElem?_getD, List.getElem?_append_left hlt,
            List.getElem?_eq_getElem hlt]
        rw [this]
        intro e
        exact hk (e ▸ List.getElem_mem hlt)
      have hne : j ≠ (k ++ '=' :: v).length - 1 := by simp; omega
      rw [hf, entryLoop]
      simp only [hc, hne, if_false]
      exact ih (j + 1) (by omega)
  simpa using key k.length 0 (by omega)

/-- The `for` loop of the entry branch on a non-empty line without an equals
sign: it leaves through `return false`. -/
theorem entryLoop_none (line : Str) (hne : line ≠ []) (hk : '=' ∉ line) :
    entryLoop line 0 line.length = none := by
  have key : ∀ d j, j + d + 1 = line.length → entryLoop line j (line.length - j) = none := by
    intro d
    induction d with
    | zero =>
      intro j hj
      have hf : line.length - j = 0 + 1 := by omega
      have hc : charAt line j ≠ '=' := fun e => hk (e ▸ charAt_mem line j (by omega))
      have hl : j = line.length - 1 := by omega
      rw [hf, entryLoop]
      simp only [hc, if_false]
      simp [← hl]
    | succ d ih =>
      intro j hj
      have hf : line.length - j = (line.length - (j + 1)) + 1 := by omega
      have hc : charAt line j ≠ '=' := fun e => hk (e ▸ charAt_mem line j (by omega))
      have hl : j ≠ line.length - 1 := by omega
      rw [hf, entryLoop]
      simp only [hc, hl, if_false]
      exact ih (j + 1) (by omega)
  have hpos : 0 < line.length := List.length_pos.2 hne
  simpa using key (line.length - 1) 0 (by omega)

theorem entryLoop_nil : entryLoop [] 0 ([] : Str).length = some ([], []) := rfl

end config
end mapcrafter

namespace mapcrafter
namespace config

/-! ### One iteration of the loop of `load` -/

theorem loadLine_empty (st : LoadState) : ConfigFile.loadLine st [] = (true, st.skip) := by
  simp [ConfigFile.loadLine, LoadState.skip]

theorem loadLine_comment (st : LoadState) (line rest : Str) (hne : line ≠ [])
    (ht : trim line = '#' :: rest) : ConfigFile.loadLine st line = (true, st.skip) := by
  simp only [ConfigFile.loadLine, hne, ht, if_false, charAt_cons_zero, if_true, LoadState.skip]

theorem loadLine_unclosed (st : LoadState) (line rest : Str) (hne : line ≠ [])
    (ht : trim line = '[' :: rest) (hlast : rest.getLast? ≠ some ']') :
    ConfigFile.loadLine st line =
      (false, st.reject (expectingBracketText (st.linenumber + 1))) := by
  have hc : charAt ('[' :: rest) (('[' :: rest).length - 1) ≠ ']' := by
    rcases List.eq_nil_or_concat rest with h | ⟨a, c, h⟩
    · subst h; simp [charAt]
    · rw [List.concat_eq_append] at h
      subst h
      have hc : c ≠ ']' := by
        intro e; apply hlast; simp [e]
      have := charAt_last ('[' :: a) c
      rw [List.cons_append] at this
      rw [this]; exact hc
  have h1 : ('[' : Char) ≠ '#' := by decide
  simp only [ConfigFile.loadLine, hne, ht, if_false, charAt_cons_zero, if_true, h1, hc, ne_eq,
    not_false_eq_true, LoadState.reject, expectingBracketText]

theorem loadLine_bracketed (st : LoadState) (line body : Str) (hne : line ≠ [])
    (ht : trim line = '[' :: body ++ [']']) :
    ConfigFile.loadLine st line =
      if namePart body = [] then (false, st.reject (invalidNameText (st.linenumber + 1)))
      else (true, st.openSection (typePart body) (namePart body)) := by
  have hc : charAt ('[' :: body ++ [']']) (('[' :: body ++ [']']).length - 1) = ']' :=
    charAt_last ('[' :: body) ']'
  have hsub : substr ('[' :: body ++ [']']) 1 (('[' :: body ++ [']']).length - 2) = body := by
    simp [substr]
  have hs := header_split body
  have h1 : ('[' : Char) ≠ '#' := by decide
  have h0 : charAt ('[' :: body ++ [']']) 0 = '[' := charAt_cons_zero _ _
  simp only [ConfigFile.loadLine, hne, ht, if_false, hc, hsub, hs, h0, h1, if_true, ne_eq,
    not_true_eq_false, LoadState.reject, invalidNameText, LoadState.openSection]

theorem loadLine_noEquals (st : LoadState) (line : Str) (c : Char) (rest : Str)
    (ht : trim line = c :: rest) (hc1 : c ≠ '#') (hc2 : c ≠ '[') (heq : '=' ∉ trim line) :
    ConfigFile.loadLine st line = (false, st.reject (noEqualsText (st.linenumber + 1))) := by
  have hne : line ≠ [] := by
    intro h; subst h; rw [trim_nil] at ht; cases ht
  have hl := entryLoop_none (trim line) (by rw [ht]; simp) heq
  rw [ht] at hl
  simp only [ConfigFile.loadLine, hne, ht, if_false, charAt_cons_zero, hc1, hc2, hl,
    LoadState.reject, noEqualsText]

theorem loadLine_entry (st : LoadState) (line k v : Str) (hne : line ≠ [])
    (ht : trim line = k ++ '=' :: v) (hk : '=' ∉ k) (h1 : k.head? ≠ some '#')
    (h2 : k.head? ≠ some '[') :
    ConfigFile.loadLine st line = (true, st.put (trim k) (trim v)) := by
  have hl := entryLoop_split k v hk
  have hc : charAt (k ++ '=' :: v) 0 ≠ '#' ∧ charAt (k ++ '=' :: v) 0 ≠ '[' := by
    cases k with
    | nil => simp [charAt]
    | cons a k' =>
      simp only [List.cons_append, charAt_cons_zero]
      constructor
      · intro e; apply h1; simp [e]
      · intro e; apply h2; simp [e]
  simp only [ConfigFile.loadLine, hne, ht, if_false, hc.1, hc.2, hl, LoadState.put]
  split <;> rfl

theorem loadLine_blank (st : LoadState) (line : Str) (hne : line ≠ []) (ht : trim line = []) :
    ConfigFile.loadLine st line = (true, st.put [] []) := by
  have h0 : charAt [] 0 ≠ '#' ∧ charAt [] 0 ≠ '[' := by
    constructor <;> simp [charAt]
  simp only [ConfigFile.loadLine, hne, ht, if_false, h0.1, h0.2, List.length_nil, entryLoop,
    LoadState.put, trim_nil]
  split <;> rfl

end config
end mapcrafter

namespace mapcrafter
namespace config

/-! ### Uniqueness of keys -/

theorem set_keys_nodup (s : ConfigSection) (key value : Str) (h : s.keys.Nodup) :
    (s.set key value).keys.Nodup := by
  rcases section_cases s key with hm | ⟨pre, v0, post, hs, hpre⟩
  · rw [(section_miss s key hm).2.2.2.1 value]
    simp only [ConfigSection.keys, List.map_append, List.map_cons, List.map_nil]
    refine List.Nodup.append h (List.nodup_singleton _) ?_
    intro k hk hk'
    simp only [List.mem_singleton] at hk'
    subst hk'
    obtain ⟨e, he, hek⟩ := List.mem_map.1 hk
    exact hm e he hek
  · rw [(section_hit s key v0 pre post hs hpre).2.2.2.1 value]
    simpa [ConfigSection.keys, hs] using h

theorem remove_keys_nodup (s : ConfigSection) (key : Str) (h : s.keys.Nodup) :
    (s.remove key).keys.Nodup := by
  rcases section_cases s key with hm | ⟨pre, v0, post, hs, hpre⟩
  · rw [(section_miss s key hm).2.2.2.2]; exact h
  · rw [(section_hit s key v0 pre post hs hpre).2.2.2.2]
    simp only [ConfigSection.keys, hs, List.map_append, List.map_cons] at h ⊢
    exact h.sublist (List.Sublist.append_left (List.sublist_cons_self _ _) _)

theorem reachable_keys_nodup (s : ConfigSection) (h : SectionReachable s) : s.keys.Nodup := by
  induction h with
  | new type name => simp [ConfigSection.keys, ConfigSection.new]
  | set s key value _ ih => exact set_keys_nodup s key value ih
  | remove s key _ ih => exact remove_keys_nodup s key ih

theorem get_set_same (s : ConfigSection) (key value d : Str) :
    (s.set key value).get key d = value := by
  rcases section_cases s key with hm | ⟨pre, v0, post, hs, hpre⟩
  · rw [(section_miss s key hm).2.2.2.1 value]
    exact (section_hit _ key value s.entries [] rfl hm).2.2.1 d
  · rw [(section_hit s key v0 pre post hs hpre).2.2.2.1 value]
    exact (section_hit _ key value pre post rfl hpre).2.2.1 d

theorem set_type_name (s : ConfigSection) (key value : Str) :
    (s.set key value).type = s.type ∧ (s.set key value).name = s.name := by
  by_cases h : s.getEntryIndex key = -1 <;> simp [ConfigSection.set, h]

/-! ### The written text -/

theorem printEntries_eq (out : Str) (es : List ConfigEntry) :
    ConfigSection.printEntries out es = out ++ unlines (es.map entryLine) := by
  induction es generalizing out with
  | nil => simp [ConfigSection.printEntries, unlines]
  | cons e es ih =>
    rw [ConfigSection.printEntries, ih]
    simp [unlines, entryLine]

theorem unlines_append (a b : List Str) : unlines (a ++ b) = unlines a ++ unlines b := by
  simp [unlines]

theorem unlines_cons (l : Str) (ls : List Str) : unlines (l :: ls) = l ++ '\n' :: unlines ls := by
  simp [unlines]

theorem print_named (out : Str) (s : ConfigSection) (h : s.name ≠ []) :
    s.print out ++ ['\n'] = out ++ unlines (sectionBlock s) := by
  unfold ConfigSection.print ConfigSection.printHeader
  simp only [ConfigSection.getName, ConfigSection.getType, ConfigSection.getEntries, h, ne_eq,
    not_false_eq_true, if_true, printEntries_eq]
  by_cases ht : s.type = []
  · simp [ht, sectionBlock, headerLine, unlines]
  · simp [ht, sectionBlock, headerLine, unlines]

theorem print_unnamed (out : Str) (s : ConfigSection) (h : s.name = []) :
    s.print out ++ ['\n'] = out ++ unlines (s.entries.map entryLine ++ [[]]) := by
  unfold ConfigSection.print ConfigSection.printHeader
  simp [ConfigSection.getName, ConfigSection.getEntries, h, printEntries_eq, unlines]

theorem writeSections_eq (out : Str) (ss : List ConfigSection) :
    ConfigFile.writeSections out ss =
      out ++ unlines (((ss.filter (fun s => s.name ≠ [])).map sectionBlock).flatten) := by
  induction ss generalizing out with
  | nil => simp [ConfigFile.writeSections, unlines]
  | cons s ss ih =>
    by_cases h : s.name = []
    · simp [ConfigFile.writeSections, ConfigSection.isNamed, h, ih]
    · have hn : s.isNamed = true := by simp [ConfigSection.isNamed, h]
      rw [ConfigFile.writeSections, if_pos hn, ih, print_named out s h]
      simp [h, unlines_append]

theorem write_eq (f : ConfigFile) (out : Str) (hroot : f.root.name = []) :
    f.write out = (true, out ++ unlines (writtenLines f)) := by
  unfold ConfigFile.write
  simp only [writeSections_eq, writtenLines, unlines_append]
  by_cases h : f.root.entries = []
  · simp [ConfigSection.isEmpty, h, rootBlock, unlines]
  · have hl : f.root.entries.length ≠ 0 := by
      intro e; exact h (List.length_eq_zero.1 e)
    simp only [ConfigSection.isEmpty, rootBlock, h, if_false, print_unnamed out f.root hroot]
    simp [hl]

end config
end mapcrafter

namespace mapcrafter
namespace config

/-! ### What a line can do to the state of `load` -/

theorem mem_typePart (body : Str) (c : Char) (h : c ∈ typePart body) : c ∈ body := by
  by_cases hc : ':' ∈ body
  · obtain ⟨a, b, hs, ha⟩ := exists_split_of_mem body ':' hc
    rw [hs, typePart_split a b ha] at h
    rw [hs]; simp [h]
  · rw [typePart_of_not_mem body hc] at h; simp at h

theorem mem_namePart (body : Str) (c : Char) (h : c ∈ namePart body) : c ∈ body := by
  by_cases hc : ':' ∈ body
  · obtain ⟨a, b, hs, ha⟩ := exists_split_of_mem body ':' hc
    rw [hs, namePart_split a b ha] at h
    rw [hs]; simp [h]
  · rw [namePart_of_not_mem body hc] at h; exact h

theorem trimmed_nil : Trimmed [] := by
  constructor <;> intro c hc <;> simp at hc

theorem trim_head_of_cons (c : Char) (k : Str) (hc : isWhitespace c = false) :
    (trim (c :: k)).head? = some c := by
  obtain ⟨l, r, hs, hl, _⟩ := trim_decomp (c :: k)
  have hne : trim (c :: k) ≠ [] := by
    intro h
    have := (trim_eq_nil_iff (c :: k)).1 h c (by simp)
    rw [this] at hc; cases hc
  cases l with
  | nil =>
    obtain ⟨a, t, ht⟩ := List.exists_cons_of_ne_nil hne
    rw [ht] at hs ⊢
    simp only [List.nil_append, List.cons_append, List.cons.injEq] at hs
    simp [hs.1]
  | cons a l =>
    simp only [List.cons_append, List.cons.injEq] at hs
    have := hl a (by simp)
    rw [← hs.1, hc] at this; cases this

theorem storedEntry_nil : StoredEntry [] [] := by
  refine ⟨trimmed_nil, trimmed_nil, ?_, ?_, ?_, ?_, ?_⟩ <;> simp

theorem loadLine_cases (st : LoadState) (line : Str) (hnl : '\n' ∉ line) :
    ConfigFile.loadLine st line = (true, st.skip) ∨
    (∃ t n, StoredHeader t n ∧ ConfigFile.loadLine st line = (true, st.openSection t n)) ∨
    (∃ k v, StoredEntry k v ∧ ConfigFile.loadLine st line = (true, st.put k v)) ∨
    (∃ text, ConfigFile.loadLine st line = (false, st.reject text)) := by
  by_cases hne : line = []
  · subst hne; left; exact loadLine_empty st
  have hnt : '\n' ∉ trim line := fun h => hnl (mem_trim line _ h)
  cases ht : trim line with
  | nil =>
    right; right; left
    exact ⟨[], [], storedEntry_nil, loadLine_blank st line hne ht⟩
  | cons c rest =>
    rw [ht] at hnt
    by_cases hc1 : c = '#'
    · subst hc1; left; exact loadLine_comment st line rest hne ht
    by_cases hc2 : c = '['
    · subst hc2
      by_cases hlast : rest.getLast? = some ']'
      · obtain ⟨body, hb⟩ : ∃ body, rest = body ++ [']'] := by
          rcases List.eq_nil_or_concat rest with h | ⟨a, d, h⟩
          · subst h; simp at hlast
          · rw [List.concat_eq_append] at h
            subst h
            refine ⟨a, ?_⟩
            simp at hlast
            rw [hlast]
        subst hb
        have hl := loadLine_bracketed st line body hne (by rw [ht]; rfl)
        by_cases hn : namePart body = []
        · right; right; right
          rw [if_pos hn] at hl
          exact ⟨_, hl⟩
        · right; left
          rw [if_neg hn] at hl
          have hbody : '\n' ∉ body := fun h => hnt (by simp [h])
          exact ⟨typePart body, namePart body,
            ⟨hn, typePart_no_colon body, fun h => hbody (mem_typePart _ _ h),
              fun h => hbody (mem_namePart _ _ h)⟩, hl⟩
      · right; right; right
        exact ⟨_, loadLine_unclosed st line rest hne ht hlast⟩
    by_cases heq : '=' ∈ trim line
    · right; right; left
      obtain ⟨k, v, hs, hk⟩ := exists_split_of_mem (trim line) '=' heq
      have hcw : isWhitespace c = false := (trimmed_trim line).1 c (by rw [ht]; rfl)
      have hkh : ∀ x, k.head? = some x → x = c := by
        intro x hx
        cases k with
        | nil => simp at hx
        | cons a k' =>
          rw [ht] at hs
          simp only [List.cons_append, List.cons.injEq] at hs
          simp only [List.head?_cons, Option.some.injEq] at hx
          rw [← hx, hs.1]
      have hk1 : k.head? ≠ some '#' := fun h => hc1 (hkh _ h).symm
      have hk2 : k.head? ≠ some '[' := fun h => hc2 (hkh _ h).symm
      have hth : ∀ x, (trim k).head? = some x → x = c := by
        intro x hx
        cases k with
        | nil => rw [trim_nil] at hx; simp at hx
        | cons a k' =>
          have ha : a = c := hkh a rfl
          subst ha
          rw [trim_head_of_cons a k' hcw] at hx
          simpa using hx.symm
      have hkn : '\n' ∉ k := fun h => hnt (by rw [← ht, hs]; simp [h])
      have hvn : '\n' ∉ v := fun h => hnt (by rw [← ht, hs]; simp [h])
      refine ⟨trim k, trim v, ⟨trimmed_trim k, trimmed_trim v, fun h => hkn (mem_trim _ _ h),
        fun h => hvn (mem_trim _ _ h), fun h => hk (mem_trim _ _ h),
        fun h => hc1 (hth _ h).symm, fun h => hc2 (hth _ h).symm⟩, ?_⟩
      exact loadLine_entry st line k v hne hs hk hk1 hk2
    · right; right; right
      exact ⟨_, loadLine_noEquals st line c rest ht hc1 hc2 heq⟩

theorem mem_getlines_no_newline (inp : Str) : ∀ l ∈ getlines inp, '\n' ∉ l := by
  induction inp with
  | nil => simp [getlines]
  | cons c cs ih =>
    intro l hl
    by_cases hc : c = '\n'
    · simp only [getlines, hc, if_true, List.mem_cons] at hl
      rcases hl with rfl | hl
      · simp
      · exact ih l hl
    · simp only [getlines, hc, if_false] at hl
      cases hg : getlines cs with
      | nil =>
        rw [hg] at hl
        simp only [List.mem_singleton] at hl
        subst hl
        simpa using fun e : '\n' = c => hc e.symm
      | cons l0 ls =>
        rw [hg] at hl ih
        simp only [List.mem_cons] at hl
        rcases hl with rfl | hl
        · have := ih l0 (by simp)
          intro hm
          rcases List.mem_cons.1 hm with e | e
          · exact hc e.symm
          · exact this e
        · exact ih l (by simp [hl])

end config
end mapcrafter

namespace mapcrafter
namespace config

/-! ### The loop of `load` -/

theorem loadLoop_nil (st : LoadState) : ConfigFile.loadLoop [] st = (true, st) := rfl

theorem loadLoop_cons_true (line : Str) (rest : List Str) (st st' : LoadState)
    (h : ConfigFile.loadLine st line = (true, st')) :
    ConfigFile.loadLoop (line :: rest) st = ConfigFile.loadLoop rest st' := by
  simp [ConfigFile.loadLoop, h]

theorem loadLoop_cons_false (line : Str) (rest : List Str) (st st' : LoadState)
    (h : ConfigFile.loadLine st line = (false, st')) :
    ConfigFile.loadLoop (line :: rest) st = (false, st') := by
  simp [ConfigFile.loadLoop, h]

theorem loadLoop_append_true (a b : List Str) (st st' : LoadState)
    (h : ConfigFile.loadLoop a st = (true, st')) :
    ConfigFile.loadLoop (a ++ b) st = ConfigFile.loadLoop b st' := by
  induction a generalizing st with
  | nil =>
    rw [loadLoop_nil] at h
    simp only [Prod.mk.injEq, true_and] at h
    subst h; rfl
  | cons line rest ih =>
    rcases hl : ConfigFile.loadLine st line with ⟨ok, st1⟩
    cases ok with
    | true =>
      rw [loadLoop_cons_true line rest st st1 hl] at h
      rw [List.cons_append, loadLoop_cons_true line (rest ++ b) st st1 hl]
      exact ih st1 h
    | false =>
      rw [loadLoop_cons_false line rest st st1 hl] at h
      simp at h

theorem loadLoop_append_false (a b : List Str) (st st' : LoadState)
    (h : ConfigFile.loadLoop a st = (false, st')) :
    ConfigFile.loadLoop (a ++ b) st = (false, st') := by
  induction a generalizing st with
  | nil => rw [loadLoop_nil] at h; simp at h
  | cons line rest ih =>
    rcases hl : ConfigFile.loadLine st line with ⟨ok, st1⟩
    cases ok with
    | true =>
      rw [loadLoop_cons_true line rest st st1 hl] at h
      rw [List.cons_append, loadLoop_cons_true line (rest ++ b) st st1 hl]
      exact ih st1 h
    | false =>
      rw [loadLoop_cons_false line rest st st1 hl] at h
      rw [List.cons_append, loadLoop_cons_false line (rest ++ b) st st1 hl]
      exact h

/-- A property of the object that header lines and entry lines preserve holds
after the loop, however it ends. -/
theorem loadLoop_invariant (I : ConfigFile → Prop)
    (hopen : ∀ f t n, I f → StoredHeader t n →
      I { f with sections := f.sections ++ [ConfigSection.new t n] })
    (hroot : ∀ f k v, I f → StoredEntry k v → I { f with root := f.root.set k v })
    (hsec : ∀ f i k v, I f → StoredEntry k v →
      I { f with sections := setInSection f.sections i k v })
    (lines : List Str) (hnl : ∀ l ∈ lines, '\n' ∉ l) (st : LoadState) (h : I st.file) :
    I (ConfigFile.loadLoop lines st).2.file := by
  induction lines generalizing st with
  | nil => exact h
  | cons line rest ih =>
    have hrest : ∀ l ∈ rest, '\n' ∉ l := fun l hl => hnl l (List.mem_cons_of_mem _ hl)
    rcases loadLine_cases st line (hnl line (List.mem_cons_self _ _)) with
      hl | ⟨t, n, hg, hl⟩ | ⟨k, v, hg, hl⟩ | ⟨text, hl⟩
    · rw [loadLoop_cons_true line rest st _ hl]
      exact ih hrest _ h
    · rw [loadLoop_cons_true line rest st _ hl]
      exact ih hrest _ (hopen _ t n h hg)
    · rw [loadLoop_cons_true line rest st _ hl]
      apply ih hrest
      unfold LoadState.put
      split
      · exact hroot _ k v h hg
      · exact hsec _ _ k v h hg
    · rw [loadLoop_cons_false line rest st _ hl]
      exact h

theorem setInSection_forall (P : ConfigSection → Prop) (key value : Str)
    (hP : ∀ s, P s → P (s.set key value)) (ss : List ConfigSection) (i : Nat)
    (h : ∀ s ∈ ss, P s) : ∀ s ∈ setInSection ss i key value, P s := by
  induction ss generalizing i with
  | nil => intro s hs; simp [setInSection] at hs
  | cons a ss ih =>
    have ha : P a := h a (List.mem_cons_self _ _)
    have hss : ∀ s ∈ ss, P s := fun s hs => h s (List.mem_cons_of_mem _ hs)
    cases i with
    | zero =>
      intro s hs
      simp only [setInSection, List.mem_cons] at hs
      rcases hs with rfl | hs
      · exact hP a ha
      · exact hss s hs
    | succ i =>
      intro s hs
      simp only [setInSection, List.mem_cons] at hs
      rcases hs with rfl | hs
      · exact ha
      · exact ih i hss s hs

/-- A property of sections that holds for new sections and that `set` preserves
holds for the root and all sections after the loop, if it did before. -/
theorem loadLoop_sections_invariant (P : ConfigSection → Prop)
    (hnew : ∀ t n, StoredHeader t n → P (ConfigSection.new t n))
    (hset : ∀ s k v, P s → StoredEntry k v → P (s.set k v))
    (lines : List Str) (hnl : ∀ l ∈ lines, '\n' ∉ l) (st : LoadState)
    (h : P st.file.root ∧ ∀ s ∈ st.file.sections, P s) :
    P (ConfigFile.loadLoop lines st).2.file.root ∧
      ∀ s ∈ (ConfigFile.loadLoop lines st).2.file.sections, P s := by
  refine loadLoop_invariant (fun f => P f.root ∧ ∀ s ∈ f.sections, P s) ?_ ?_ ?_ lines hnl st h
  · intro f t n hf hg
    refine ⟨hf.1, ?_⟩
    intro s hs
    rcases List.mem_append.1 hs with hs | hs
    · exact hf.2 s hs
    · simp only [List.mem_singleton] at hs
      subst hs; exact hnew t n hg
  · intro f k v hf hg
    exact ⟨hset _ k v hf.1 hg, hf.2⟩
  · intro f i k v hf hg
    exact ⟨hf.1, setInSection_forall P k v (fun s hs => hset s k v hs hg) f.sections i hf.2⟩

/-- The return value, the object and the current section index after one line do
not depend on the line counter or on the diagnostic passed in. -/
theorem loadLine_data (st st' : LoadState) (line : Str)
    (hf : st.file = st'.file) (hs : st.section_ = st'.section_) :
    (ConfigFile.loadLine st line).1 = (ConfigFile.loadLine st' line).1 ∧
      (ConfigFile.loadLine st line).2.file = (ConfigFile.loadLine st' line).2.file ∧
      (ConfigFile.loadLine st line).2.section_ = (ConfigFile.loadLine st' line).2.section_ := by
  by_cases hnl : line = []
  · subst hnl; simp [loadLine_empty, LoadState.skip, hf, hs]
  cases ht : trim line with
  | nil =>
    simp [loadLine_blank _ line hnl ht, LoadState.put, hf, hs]
    split <;> simp
  | cons c rest =>
    by_cases hc1 : c = '#'
    · subst hc1; simp [loadLine_comment _ line rest hnl ht, LoadState.skip, hf, hs]
    by_cases hc2 : c = '['
    · subst hc2
      by_cases hlast : rest.getLast? = some ']'
      · obtain ⟨body, hb⟩ : ∃ body, rest = body ++ [']'] := by
          rcases List.eq_nil_or_concat rest with h | ⟨a, d, h⟩
          · subst h; simp at hlast
          · rw [List.concat_eq_append] at h
            subst h
            refine ⟨a, ?_⟩
            simp at hlast
            rw [hlast]
        subst hb
        rw [loadLine_bracketed st line body hnl (by rw [ht]; rfl),
          loadLine_bracketed st' line body hnl (by rw [ht]; rfl)]
        by_cases hn : namePart body = []
        · simp [hn, LoadState.reject, hf, hs]
        · simp [hn, LoadState.openSection, hf, hs]
      · simp [loadLine_unclosed _ line rest hnl ht hlast, LoadState.reject, hf, hs]
    by_cases heq : '=' ∈ trim line
    · obtain ⟨k, v, hsp, hk⟩ := exists_split_of_mem (trim line) '=' heq
      have hkh : ∀ x, k.head? = some x → x = c := by
        intro x hx
        cases k with
        | nil => simp at hx
        | cons a k' =>
          rw [ht] at hsp
          simp only [List.cons_append, List.cons.injEq] at hsp
          simp only [List.head?_cons, Option.some.injEq] at hx
          rw [← hx, hsp.1]
      have hk1 : k.head? ≠ some '#' := fun h => hc1 (hkh _ h).symm
      have hk2 : k.head? ≠ some '[' := fun h => hc2 (hkh _ h).symm
      rw [loadLine_entry st line k v hnl hsp hk hk1 hk2,
        loadLine_entry st' line k v hnl hsp hk hk1 hk2]
      simp only [LoadState.put, hf, hs]
      split <;> simp
    · simp [loadLine_noEquals _ line c rest ht hc1 hc2 heq, LoadState.reject, hf, hs]

theorem loadLoop_data (lines : List Str) (st st' : LoadState)
    (hf : st.file = st'.file) (hs : st.section_ = st'.section_) :
    (ConfigFile.loadLoop lines st).1 = (ConfigFile.loadLoop lines st').1 ∧
      (ConfigFile.loadLoop lines st).2.file = (ConfigFile.loadLoop lines st').2.file ∧
      (ConfigFile.loadLoop lines st).2.section_ = (ConfigFile.loadLoop lines st').2.section_ := by
  induction lines generalizing st st' with
  | nil => exact ⟨rfl, hf, hs⟩
  | cons line rest ih =>
    obtain ⟨h1, h2, h3⟩ := loadLine_data st st' line hf hs
    rcases hl : ConfigFile.loadLine st line with ⟨ok, st1⟩
    rcases hl' : ConfigFile.loadLine st' line with ⟨ok', st1'⟩
    rw [hl, hl'] at h1 h2 h3
    simp only at h1 h2 h3
    subst h1
    cases ok with
    | true =>
      rw [loadLoop_cons_true line rest st st1 hl, loadLoop_cons_true line rest st' st1' hl']
      exact ih st1 st1' h2 h3
    | false =>
      rw [loadLoop_cons_false line rest st st1 hl, loadLoop_cons_false line rest st' st1' hl']
      exact ⟨rfl, h2, h3⟩

end config
end mapcrafter

namespace mapcrafter
namespace config

/-! ### Lines of a text -/

theorem getlines_line (c b : Str) (hc : '\n' ∉ c) : getlines (c ++ '\n' :: b) = c :: getlines b := by
  induction c with
  | nil => simp [getlines]
  | cons x xs ih =>
    have hx : x ≠ '\n' := fun e => hc (by simp [e])
    have hxs : '\n' ∉ xs := fun e => hc (by simp [e])
    rw [List.cons_append, getlines, if_neg hx, ih hxs]

theorem getlines_unlines_append (ls : List Str) (b : Str) (h : ∀ l ∈ ls, '\n' ∉ l) :
    getlines (unlines ls ++ b) = ls ++ getlines b := by
  induction ls with
  | nil => simp [unlines]
  | cons l ls ih =>
    have hl : '\n' ∉ l := h l (List.mem_cons_self _ _)
    have hls : ∀ l ∈ ls, '\n' ∉ l := fun x hx => h x (List.mem_cons_of_mem _ hx)
    rw [unlines_cons, List.append_assoc, List.cons_append, getlines_line l _ hl, ih hls]
    rfl

theorem getlines_unlines (ls : List Str) (h : ∀ l ∈ ls, '\n' ∉ l) :
    getlines (unlines ls) = ls := by
  have := getlines_unlines_append ls [] h
  simpa [getlines] using this

/-- The lines of `getlines` are those that repeated calls of `getline` extract. -/
theorem getlines_eq_getline (inp : Str) :
    getlines inp =
      match getline inp with
      | none => []
      | some (line, rest) => line :: getlines rest := by
  induction inp with
  | nil => simp [getlines, getline]
  | cons c cs ih =>
    by_cases hc : c = '\n'
    · subst hc
      simp [getlines, getline]
    · have hc' : (decide (c ≠ '\n')) = true := by simpa using hc
      simp only [getline, reduceCtorEq, if_false, List.takeWhile_cons, hc', if_true,
        List.dropWhile_cons, getlines, hc]
      rw [ih]
      cases cs with
      | nil => simp [getline, getlines]
      | cons d ds => simp [getline]

/-! ### Header lines and entry lines as `write` produces them -/

theorem getLast?_cons_concat (x : Char) (a : Str) (c : Char) :
    (x :: a ++ [c]).getLast? = some c := by
  exact List.getLast?_concat (x :: a)

theorem getLast?_cons_of_ne_nil (x : Char) (v : Str) (hv : v ≠ []) :
    (x :: v).getLast? = v.getLast? := by
  obtain ⟨a, v', rfl⟩ := List.exists_cons_of_ne_nil hv
  rw [List.getLast?_cons_cons]

theorem trim_bracketed (body : Str) : trim ('[' :: body ++ [']']) = '[' :: body ++ [']'] := by
  have := trim_core [] ('[' :: body ++ [']']) [] (by simp) (by simp) (by simp)
    (by intro c hc; simp at hc; subst hc; decide)
    (by
      intro c hc
      rw [getLast?_cons_concat] at hc
      simp at hc; subst hc; decide)
  simpa using this

theorem loadLine_header (st : LoadState) (body : Str) :
    ConfigFile.loadLine st ('[' :: body ++ [']']) =
      if namePart body = [] then (false, st.reject (invalidNameText (st.linenumber + 1)))
      else (true, st.openSection (typePart body) (namePart body)) :=
  loadLine_bracketed st _ body (by simp) (trim_bracketed body)

theorem trim_pad_right (k : Str) (hk : Trimmed k) : trim (k ++ [' ']) = k := by
  by_cases h : k = []
  · subst h; decide
  · have := trim_core [] k [' '] (by simp) (by intro c hc; simp at hc; subst hc; decide) h
      hk.1 hk.2
    simpa using this

theorem trim_pad_left (v : Str) (hv : Trimmed v) : trim (' ' :: v) = v := by
  by_cases h : v = []
  · subst h; decide
  · have := trim_core [' '] v [] (by intro c hc; simp at hc; subst hc; decide) (by simp) h
      hv.1 hv.2
    simpa using this

/-- An entry line as `write` produces it sets exactly its entry. -/
theorem loadLine_entryLine (st : LoadState) (k v : Str) (h : StoredEntry k v) :
    ConfigFile.loadLine st (entryLine (k, v)) = (true, st.put k v) := by
  obtain ⟨hk, hv, _, _, hke, hk1, hk2⟩ := h
  have hne : entryLine (k, v) ≠ [] := by simp [entryLine]
  have heqws : isWhitespace '=' = false := by decide
  have hsp : ∀ c ∈ [' '], isWhitespace c = true := by
    intro c hc; simp at hc; subst hc; decide
  by_cases hk0 : k = []
  · subst hk0
    by_cases hv0 : v = []
    · subst hv0
      have ht : trim (entryLine ([], [])) = [] ++ '=' :: [] := by decide
      have := loadLine_entry st _ [] [] hne ht (by simp) (by simp) (by simp)
      simpa [trim_nil] using this
    · have ht : trim (entryLine ([], v)) = [] ++ '=' :: (' ' :: v) := by
        have := trim_core [' '] ('=' :: ' ' :: v) [] hsp (by simp) (by simp)
          (by intro c hc; simp at hc; subst hc; exact heqws)
          (by
            intro c hc
            apply hv.2 c
            rw [← hc, getLast?_cons_of_ne_nil _ _ (by simp), getLast?_cons_of_ne_nil _ _ hv0])
        simpa [entryLine] using this
      have := loadLine_entry st _ [] (' ' :: v) hne ht (by simp) (by simp) (by simp)
      rw [this, trim_nil, trim_pad_left v hv]
  · have hkh : ∀ c, (k ++ [' ', '='] ).head? = some c → isWhitespace c = false := by
      intro c hc
      apply hk.1 c
      rw [← hc]
      obtain ⟨a, k', rfl⟩ := List.exists_cons_of_ne_nil hk0
      simp
    have hke' : '=' ∉ k ++ [' '] := by
      intro hm
      rcases List.mem_append.1 hm with hm | hm
      · exact hke hm
      · simp at hm
    have hh1 : (k ++ [' ']).head? ≠ some '#' := by
      obtain ⟨a, k', rfl⟩ := List.exists_cons_of_ne_nil hk0
      simpa using hk1
    have hh2 : (k ++ [' ']).head? ≠ some '[' := by
      obtain ⟨a, k', rfl⟩ := List.exists_cons_of_ne_nil hk0
      simpa using hk2
    by_cases hv0 : v = []
    · subst hv0
      have ht : trim (entryLine (k, [])) = (k ++ [' ']) ++ '=' :: [] := by
        have := trim_core [] (k ++ [' ', '=']) [' '] (by simp) hsp (by simp) hkh
          (by intro c hc; simp at hc; subst hc; exact heqws)
        simpa [entryLine] using this
      have := loadLine_entry st _ (k ++ [' ']) [] hne ht hke' hh1 hh2
      rw [this, trim_nil, trim_pad_right k hk]
    · have ht : trim (entryLine (k, v)) = (k ++ [' ']) ++ '=' :: (' ' :: v) := by
        have := trim_core [] (k ++ [' ', '=', ' '] ++ v) [] (by simp) (by simp) (by simp)
          (by
            intro c hc
            apply hk.1 c
            rw [← hc]
            obtain ⟨a, k', rfl⟩ := List.exists_cons_of_ne_nil hk0
            simp)
          (by
            intro c hc
            apply hv.2 c
            rw [← hc, List.getLast?_append_of_ne_nil _ hv0])
        simpa [entryLine] using this
      have := loadLine_entry st _ (k ++ [' ']) (' ' :: v) hne ht hke' hh1 hh2
      rw [this, trim_pad_right k hk, trim_pad_left v hv]

end config
end mapcrafter

namespace mapcrafter
namespace config

/-! ### Which lines are rejected -/

theorem defects_exclusive (line : Str) :
    ¬ (MissingBracket line ∧ EmptySectionName line) ∧
    ¬ (MissingBracket line ∧ MissingEquals line) ∧
    ¬ (EmptySectionName line ∧ MissingEquals line) := by
  refine ⟨?_, ?_, ?_⟩
  · rintro ⟨⟨_, h1⟩, ⟨body, hb, _⟩⟩
    rw [hb, getLast?_cons_concat] at h1
    exact h1 rfl
  · rintro ⟨⟨h1, _⟩, ⟨h2, _⟩⟩
    exact h2 h1
  · rintro ⟨⟨body, hb, _⟩, ⟨h2, _⟩⟩
    rw [hb] at h2
    exact h2 rfl

theorem exists_body_of_getLast (rest : Str) (h : rest.getLast? = some ']') :
    ∃ body, rest = body ++ [']'] := by
  rcases List.eq_nil_or_concat rest with h0 | ⟨a, d, h0⟩
  · subst h0; simp at h
  · rw [List.concat_eq_append] at h0
    subst h0
    refine ⟨a, ?_⟩
    simp at h
    rw [h]

theorem head?_of_split (t k v : Str) (c : Char) (rest : Str) (ht : t = c :: rest)
    (hs : t = k ++ '=' :: v) : ∀ x, k.head? = some x → x = c := by
  intro x hx
  cases k with
  | nil => simp at hx
  | cons a k' =>
    rw [ht] at hs
    simp only [List.cons_append, List.cons.injEq] at hs
    simp only [List.head?_cons, Option.some.injEq] at hx
    rw [← hx, hs.1]

/-- One line is either accepted, and then it is not a defective line with visible
text, or it is such a line and is rejected with the diagnostic of its defect and
the number of the line. -/
theorem loadLine_verdict (st : LoadState) (line : Str) :
    (¬ (Defective line ∧ ¬ WhitespaceOnly line) ∧ (ConfigFile.loadLine st line).1 = true ∧
      (ConfigFile.loadLine st line).2.linenumber = st.linenumber + 1) ∨
    (Defective line ∧ ¬ WhitespaceOnly line ∧
      ((MissingBracket line ∧ ConfigFile.loadLine st line =
          (false, st.reject (expectingBracketText (st.linenumber + 1)))) ∨
        (EmptySectionName line ∧ ConfigFile.loadLine st line =
          (false, st.reject (invalidNameText (st.linenumber + 1)))) ∨
        (MissingEquals line ∧ ConfigFile.loadLine st line =
          (false, st.reject (noEqualsText (st.linenumber + 1)))))) := by
  by_cases hne : line = []
  · subst hne
    left
    refine ⟨fun h => h.1.1 rfl, ?_, ?_⟩ <;> simp [loadLine_empty, LoadState.skip]
  cases ht : trim line with
  | nil =>
    left
    have hw : WhitespaceOnly line := ⟨hne, (trim_eq_nil_iff line).1 ht⟩
    refine ⟨fun h => h.2 hw, ?_, ?_⟩
    · rw [loadLine_blank st line hne ht]
    · rw [loadLine_blank st line hne ht]
      unfold LoadState.put
      split <;> rfl
  | cons c rest =>
    have hnw : ¬ WhitespaceOnly line := by
      intro hw
      have := (trim_eq_nil_iff line).2 hw.2
      rw [ht] at this; cases this
    by_cases hc1 : c = '#'
    · subst hc1
      left
      refine ⟨fun h => h.1.2.1 (by rw [ht]; rfl), ?_, ?_⟩ <;>
        simp [loadLine_comment st line rest hne ht, LoadState.skip]
    have hhash : (trim line).head? ≠ some '#' := by
      rw [ht]; intro e; simp at e; exact hc1 e
    by_cases hc2 : c = '['
    · subst hc2
      by_cases hlast : rest.getLast? = some ']'
      · obtain ⟨body, hb⟩ := exists_body_of_getLast rest hlast
        subst hb
        have ht' : trim line = '[' :: body ++ [']'] := by rw [ht]; rfl
        have hl := loadLine_bracketed st line body hne ht'
        by_cases hn : namePart body = []
        · right
          rw [if_pos hn] at hl
          have hd : EmptySectionName line := ⟨body, ht', hn⟩
          exact ⟨⟨hne, hhash, Or.inr (Or.inl hd)⟩, hnw, Or.inr (Or.inl ⟨hd, hl⟩)⟩
        · left
          rw [if_neg hn] at hl
          refine ⟨?_, by rw [hl], by rw [hl]; rfl⟩
          rintro ⟨⟨_, _, h | h | h⟩, _⟩
          · apply h.2
            rw [ht', getLast?_cons_concat]
          · obtain ⟨body', hb', hn'⟩ := h
            rw [ht'] at hb'
            have : body = body' := by
              have := List.append_cancel_right (List.cons.inj hb').2
              exact this
            subst this
            exact hn hn'
          · apply h.1
            rw [ht]; rfl
      · right
        have hd : MissingBracket line := by
          refine ⟨by rw [ht]; rfl, ?_⟩
          rw [ht]
          by_cases hr : rest = []
          · subst hr; simp
          · rw [getLast?_cons_of_ne_nil _ _ hr]; exact hlast
        exact ⟨⟨hne, hhash, Or.inl hd⟩, hnw,
          Or.inl ⟨hd, loadLine_unclosed st line rest hne ht hlast⟩⟩
    have hbr : (trim line).head? ≠ some '[' := by
      rw [ht]; intro e; simp at e; exact hc2 e
    by_cases heq : '=' ∈ trim line
    · left
      obtain ⟨k, v, hsp, hk⟩ := exists_split_of_mem (trim line) '=' heq
      have hkh := head?_of_split (trim line) k v c rest ht hsp
      have hk1 : k.head? ≠ some '#' := fun h => hc1 (hkh _ h).symm
      have hk2 : k.head? ≠ some '[' := fun h => hc2 (hkh _ h).symm
      have hl := loadLine_entry st line k v hne hsp hk hk1 hk2
      refine ⟨?_, by rw [hl], ?_⟩
      · rintro ⟨⟨_, _, h | h | h⟩, _⟩
        · exact hbr h.1
        · obtain ⟨body', hb', _⟩ := h
          apply hbr; rw [hb']; rfl
        · exact h.2 heq
      · rw [hl]
        unfold LoadState.put
        split <;> rfl
    · right
      have hd : MissingEquals line := ⟨hbr, heq⟩
      exact ⟨⟨hne, hhash, Or.inr (Or.inr hd)⟩, hnw,
        Or.inr (Or.inr ⟨hd, loadLine_noEquals st line c rest ht hc1 hc2 heq⟩)⟩

/-- The loop returns `false` exactly when some line is defective and has visible
text. -/
theorem loadLoop_false_iff (lines : List Str) (st : LoadState) :
    (ConfigFile.loadLoop lines st).1 = false ↔
      ∃ l ∈ lines, Defective l ∧ ¬ WhitespaceOnly l := by
  induction lines generalizing st with
  | nil => simp [loadLoop_nil]
  | cons line rest ih =>
    rcases loadLine_verdict st line with ⟨hnd, hok, _⟩ | ⟨hd, hnw, hcases⟩
    · rcases hl : ConfigFile.loadLine st line with ⟨ok, st1⟩
      rw [hl] at hok
      simp only at hok
      subst hok
      rw [loadLoop_cons_true line rest st st1 hl, ih st1]
      constructor
      · rintro ⟨l, hl', h⟩; exact ⟨l, List.mem_cons_of_mem _ hl', h⟩
      · rintro ⟨l, hl', h⟩
        rcases List.mem_cons.1 hl' with rfl | hl'
        · exact absurd h hnd
        · exact ⟨l, hl', h⟩
    · have hf : ∃ st1, ConfigFile.loadLine st line = (false, st1) := by
        rcases hcases with ⟨_, h⟩ | ⟨_, h⟩ | ⟨_, h⟩ <;> exact ⟨_, h⟩
      obtain ⟨st1, hl⟩ := hf
      rw [loadLoop_cons_false line rest st st1 hl]
      exact ⟨fun _ => ⟨line, List.mem_cons_self _ _, hd, hnw⟩, fun _ => rfl⟩

/-- When the loop returns `false`, the diagnostic is the one of the first
defective line with visible text, numbered with its position. -/
theorem loadLoop_false_message (lines : List Str) (st : LoadState)
    (h : (ConfigFile.loadLoop lines st).1 = false) :
    ∃ i line, lines.get? i = some line ∧ Defective line ∧ ¬ WhitespaceOnly line ∧
      (∀ j l, j < i → lines.get? j = some l → ¬ (Defective l ∧ ¬ WhitespaceOnly l)) ∧
      ((MissingBracket line ∧ (ConfigFile.loadLoop lines st).2.msg =
          ValidationMessage.error (expectingBracketText (st.linenumber + i + 1))) ∨
        (EmptySectionName line ∧ (ConfigFile.loadLoop lines st).2.msg =
          ValidationMessage.error (invalidNameText (st.linenumber + i + 1))) ∨
        (MissingEquals line ∧ (ConfigFile.loadLoop lines st).2.msg =
          ValidationMessage.error (noEqualsText (st.linenumber + i + 1)))) := by
  induction lines generalizing st with
  | nil => rw [loadLoop_nil] at h; simp at h
  | cons line rest ih =>
    rcases loadLine_verdict st line with ⟨hnd, hok, hnum⟩ | ⟨hd, hnw, hcases⟩
    · rcases hl : ConfigFile.loadLine st line with ⟨ok, st1⟩
      rw [hl] at hok hnum
      simp only at hok hnum
      subst hok
      rw [loadLoop_cons_true line rest st st1 hl] at h ⊢
      obtain ⟨i, l, hget, hdl, hwl, hfirst, hmsg⟩ := ih st1 h
      refine ⟨i + 1, l, by simpa using hget, hdl, hwl, ?_, ?_⟩
      · intro j l' hj hget'
        cases j with
        | zero =>
          simp at hget'
          subst hget'
          exact hnd
        | succ j => exact hfirst j l' (by omega) (by simpa using hget')
      · have e : st1.linenumber + i + 1 = st.linenumber + (i + 1) + 1 := by omega
        rw [e] at hmsg
        exact hmsg
    · refine ⟨0, line, rfl, hd, hnw, fun j l hj _ => absurd hj (Nat.not_lt_zero j), ?_⟩
      rcases hcases with ⟨hk, hl⟩ | ⟨hk, hl⟩ | ⟨hk, hl⟩
      · left; rw [loadLoop_cons_false line rest st _ hl]; exact ⟨hk, rfl⟩
      · right; left; rw [loadLoop_cons_false line rest st _ hl]; exact ⟨hk, rfl⟩
      · right; right; rw [loadLoop_cons_false line rest st _ hl]; exact ⟨hk, rfl⟩

end config
end mapcrafter

namespace mapcrafter
namespace config

/-! ### The section list of a file -/

theorem getSectionIndexFrom_eq_neg_one_iff (type name : Str) (ss : List ConfigSection) (i : Nat) :
    getSectionIndexFrom type name ss i = -1 ↔ ∀ s ∈ ss, ¬ (s.type = type ∧ s.name = name) := by
  induction ss generalizing i with
  | nil => simp [getSectionIndexFrom]
  | cons s ss ih =>
    simp only [getSectionIndexFrom, ConfigSection.getType, ConfigSection.getName]
    by_cases h : s.type = type ∧ s.name = name
    · simp only [h, and_self, if_true]
      constructor
      · intro h1; omega
      · intro h1; exact absurd h (h1 s (List.mem_cons_self _ _))
    · simp only [h, if_false, ih (i + 1), List.mem_cons, forall_eq_or_imp]
      simp [h]

theorem getSectionIndexFrom_append_hit (type name : Str) (pre post : List ConfigSection)
    (s : ConfigSection) (i : Nat) (hs : s.type = type ∧ s.name = name)
    (hpre : ∀ x ∈ pre, ¬ (x.type = type ∧ x.name = name)) :
    getSectionIndexFrom type name (pre ++ s :: post) i = (i : Int) + pre.length := by
  induction pre generalizing i with
  | nil => simp [getSectionIndexFrom, ConfigSection.getType, ConfigSection.getName, hs]
  | cons e pre ih =>
    have he : ¬ (e.type = type ∧ e.name = name) := hpre e (List.mem_cons_self _ _)
    have hrest : ∀ x ∈ pre, ¬ (x.type = type ∧ x.name = name) :=
      fun x hx => hpre x (List.mem_cons_of_mem _ hx)
    have h1 := ih (i + 1) hrest
    rw [List.cons_append]
    simp only [getSectionIndexFrom, ConfigSection.getType, ConfigSection.getName, he, if_false,
      List.length_cons]
    rw [h1]
    push_cast; omega

theorem exists_first_section (type name : Str) (ss : List ConfigSection)
    (h : ∃ s ∈ ss, s.type = type ∧ s.name = name) :
    ∃ pre s post, ss = pre ++ s :: post ∧ (s.type = type ∧ s.name = name) ∧
      ∀ x ∈ pre, ¬ (x.type = type ∧ x.name = name) := by
  induction ss with
  | nil => simp at h
  | cons e ss ih =>
    by_cases he : e.type = type ∧ e.name = name
    · exact ⟨[], e, ss, rfl, he, by simp⟩
    · have h' : ∃ s ∈ ss, s.type = type ∧ s.name = name := by
        obtain ⟨x, hx, hk⟩ := h
        rcases List.mem_cons.1 hx with rfl | hx
        · exact absurd hk he
        · exact ⟨x, hx, hk⟩
      obtain ⟨pre, s, post, hes, hs, hpre⟩ := ih h'
      refine ⟨e :: pre, s, post, by simp [hes], hs, ?_⟩
      intro x hx
      rcases List.mem_cons.1 hx with rfl | hx
      · exact he
      · exact hpre x hx

/-- Either no stored section has the identity `(type, name)` and the index is
`-1`, or the section list splits at the first such section and the index is its
position. -/
theorem getSectionIndex_cases (f : ConfigFile) (type name : Str) :
    (f.getSectionIndex type name = -1 ∧ ∀ s ∈ f.sections, ¬ (s.type = type ∧ s.name = name)) ∨
    ∃ pre s post, f.sections = pre ++ s :: post ∧ (s.type = type ∧ s.name = name) ∧
      (∀ x ∈ pre, ¬ (x.type = type ∧ x.name = name)) ∧
      f.getSectionIndex type name = pre.length := by
  by_cases h : ∃ s ∈ f.sections, s.type = type ∧ s.name = name
  · right
    obtain ⟨pre, s, post, hes, hs, hpre⟩ := exists_first_section type name f.sections h
    refine ⟨pre, s, post, hes, hs, hpre, ?_⟩
    have := getSectionIndexFrom_append_hit type name pre post s 0 hs hpre
    simpa [ConfigFile.getSectionIndex, hes] using this
  · left
    have h' : ∀ s ∈ f.sections, ¬ (s.type = type ∧ s.name = name) :=
      fun s hs hk => h ⟨s, hs, hk⟩
    exact ⟨(getSectionIndexFrom_eq_neg_one_iff type name f.sections 0).2 h', h'⟩

theorem getSection_cases (f : ConfigFile) (type name : Str) :
    (f.getSection type name = f ∧ ∃ s ∈ f.sections, s.type = type ∧ s.name = name) ∨
    (f.getSection type name =
        { f with sections := f.sections ++ [ConfigSection.new type name] } ∧
      ∀ s ∈ f.sections, ¬ (s.type = type ∧ s.name = name)) := by
  rcases getSectionIndex_cases f type name with ⟨hi, hno⟩ | ⟨pre, s, post, hes, hs, _, hi⟩
  · right
    exact ⟨by simp [ConfigFile.getSection, hi], hno⟩
  · left
    have hne : ((pre.length : Nat) : Int) ≠ -1 := by omega
    exact ⟨by simp [ConfigFile.getSection, hi, hne], s, by rw [hes]; simp, hs⟩

theorem addSectionCopy_cases (f : ConfigFile) (s : ConfigSection) :
    (f.addSectionCopy s = { f with sections := f.sections ++ [s] } ∧
      ∀ x ∈ f.sections, ¬ (x.type = s.type ∧ x.name = s.name)) ∨
    ∃ pre s0 post, f.sections = pre ++ s0 :: post ∧ (s0.type = s.type ∧ s0.name = s.name) ∧
      (∀ x ∈ pre, ¬ (x.type = s.type ∧ x.name = s.name)) ∧
      f.addSectionCopy s = { f with sections := pre ++ s :: post } := by
  rcases getSectionIndex_cases f s.type s.name with ⟨hi, hno⟩ | ⟨pre, s0, post, hes, hs, hpre, hi⟩
  · left
    exact ⟨by simp [ConfigFile.addSectionCopy, ConfigSection.getType, ConfigSection.getName, hi],
      hno⟩
  · right
    have hne : ((pre.length : Nat) : Int) ≠ -1 := by omega
    refine ⟨pre, s0, post, hes, hs, hpre, ?_⟩
    simp [ConfigFile.addSectionCopy, ConfigSection.getType, ConfigSection.getName, hi, hne, hes]

theorem removeSection_eq_some (f g : ConfigFile) (type name : Str)
    (h : f.removeSection type name = some g) : g = f := by
  unfold ConfigFile.removeSection at h
  by_cases hi : f.getSectionIndex type name = -1
  · simp [hi] at h
  · simp [hi] at h; exact h.symm

theorem getSection_ids_nodup (f : ConfigFile) (type name : Str) (h : f.ids.Nodup) :
    (f.getSection type name).ids.Nodup := by
  rcases getSection_cases f type name with ⟨he, _⟩ | ⟨he, hno⟩
  · rw [he]; exact h
  · rw [he]
    simp only [ConfigFile.ids, List.map_append, List.map_cons, List.map_nil, ConfigSection.new]
    refine List.Nodup.append h (List.nodup_singleton _) ?_
    intro p hp hp'
    simp only [List.mem_singleton] at hp'
    subst hp'
    obtain ⟨x, hx, hxp⟩ := List.mem_map.1 hp
    simp only [Prod.mk.injEq] at hxp
    exact hno x hx hxp

theorem addSectionCopy_ids_nodup (f : ConfigFile) (s : ConfigSection) (h : f.ids.Nodup) :
    (f.addSectionCopy s).ids.Nodup := by
  rcases addSectionCopy_cases f s with ⟨he, hno⟩ | ⟨pre, s0, post, hes, hs, _, he⟩
  · rw [he]
    simp only [ConfigFile.ids, List.map_append, List.map_cons, List.map_nil]
    refine List.Nodup.append h (List.nodup_singleton _) ?_
    intro p hp hp'
    simp only [List.mem_singleton] at hp'
    subst hp'
    obtain ⟨x, hx, hxp⟩ := List.mem_map.1 hp
    simp only [Prod.mk.injEq] at hxp
    exact hno x hx hxp
  · rw [he]
    simp only [ConfigFile.ids, hes, List.map_append, List.map_cons] at h ⊢
    rw [← hs.1, ← hs.2]
    exact h

end config
end mapcrafter

namespace mapcrafter
namespace config

/-! ### Named sections -/

/-- The root stays unnamed and the stored sections stay named under `load`. -/
theorem load_named (f : ConfigFile) (inp : Str) (msg : ValidationMessage)
    (h : f.root.name = [] ∧ ∀ s ∈ f.sections, s.name ≠ []) :
    (f.load inp msg).2.1.root.name = [] ∧ ∀ s ∈ (f.load inp msg).2.1.sections, s.name ≠ [] := by
  unfold ConfigFile.load
  refine loadLoop_invariant (fun g => g.root.name = [] ∧ ∀ s ∈ g.sections, s.name ≠ [])
    ?_ ?_ ?_ (getlines inp) (mem_getlines_no_newline inp) _ h
  · intro g t n hg hh
    refine ⟨hg.1, ?_⟩
    intro s hs
    rcases List.mem_append.1 hs with hs | hs
    · exact hg.2 s hs
    · simp only [List.mem_singleton] at hs
      subst hs; exact hh.1
  · intro g k v hg _
    exact ⟨by rw [(set_type_name g.root k v).2]; exact hg.1, hg.2⟩
  · intro g i k v hg _
    exact ⟨hg.1, setInSection_forall (fun s => s.name ≠ []) k v
      (fun s hs => by
        show (s.set k v).name ≠ []
        rw [(set_type_name s k v).2]; exact hs) g.sections i hg.2⟩

theorem reachableNamed_named (f : ConfigFile) (h : FileReachableNamed f) :
    f.root.name = [] ∧ ∀ s ∈ f.sections, s.name ≠ [] := by
  induction h with
  | new => simp [ConfigFile.new, ConfigSection.new]
  | load f inp msg _ ih => exact load_named f inp msg ih
  | getSection f type name _ hn ih =>
    rcases getSection_cases f type name with ⟨he, _⟩ | ⟨he, _⟩
    · rw [he]; exact ih
    · rw [he]
      refine ⟨ih.1, ?_⟩
      intro s hs
      rcases List.mem_append.1 hs with hs | hs
      · exact ih.2 s hs
      · simp only [List.mem_singleton] at hs
        subst hs; exact hn
  | addSection f type name _ hn ih =>
    unfold ConfigFile.addSection
    rcases getSection_cases f type name with ⟨he, _⟩ | ⟨he, _⟩
    · rw [he]; exact ih
    · rw [he]
      refine ⟨ih.1, ?_⟩
      intro s hs
      rcases List.mem_append.1 hs with hs | hs
      · exact ih.2 s hs
      · simp only [List.mem_singleton] at hs
        subst hs; exact hn
  | addSectionCopy f s _ hn ih =>
    rcases addSectionCopy_cases f s with ⟨he, _⟩ | ⟨pre, s0, post, hes, _, _, he⟩
    · rw [he]
      refine ⟨ih.1, ?_⟩
      intro x hx
      rcases List.mem_append.1 hx with hx | hx
      · exact ih.2 x hx
      · simp only [List.mem_singleton] at hx
        subst hx; exact hn
    · rw [he]
      refine ⟨ih.1, ?_⟩
      intro x hx
      simp only [List.mem_append, List.mem_cons] at hx
      rcases hx with hx | rfl | hx
      · exact ih.2 x (by rw [hes]; simp [hx])
      · exact hn
      · exact ih.2 x (by rw [hes]; simp [hx])
  | removeSection f g type name _ hr ih =>
    rw [removeSection_eq_some f g type name hr]; exact ih

/-- The root section of every `ConfigFile` built through the member functions is
the unnamed section. -/
theorem reachable_root_unnamed (f : ConfigFile) (h : FileReachable f) : f.root.name = [] := by
  induction h with
  | new => rfl
  | load f inp msg _ ih =>
    unfold ConfigFile.load
    exact loadLoop_invariant (fun g => g.root.name = []) (fun g t n hg _ => hg)
      (fun g k v hg _ => by
        show (g.root.set k v).name = []
        rw [(set_type_name g.root k v).2]; exact hg)
      (fun g i k v hg _ => hg) (getlines inp) (mem_getlines_no_newline inp) _ ih
  | getSection f type name _ ih =>
    rcases getSection_cases f type name with ⟨he, _⟩ | ⟨he, _⟩ <;> rw [he] <;> exact ih
  | addSection f type name _ ih =>
    unfold ConfigFile.addSection
    rcases getSection_cases f type name with ⟨he, _⟩ | ⟨he, _⟩ <;> rw [he] <;> exact ih
  | addSectionCopy f s _ ih =>
    rcases addSectionCopy_cases f s with ⟨he, _⟩ | ⟨pre, s0, post, _, _, _, he⟩ <;>
      rw [he] <;> exact ih
  | removeSection f g type name _ hr ih =>
    rw [removeSection_eq_some f g type name hr]; exact ih

theorem filter_named_eq (ss : List ConfigSection) (h : ∀ s ∈ ss, s.name ≠ []) :
    ss.filter (fun s => s.name ≠ []) = ss := by
  apply List.filter_eq_self.2
  intro s hs
  simpa using h s hs

end config
end mapcrafter

namespace mapcrafter
namespace config

/-! ### Loading a written text -/

theorem headerLine_eq (s : ConfigSection) : headerLine s = '[' :: headerBody s ++ [']'] := by
  unfold headerLine headerBody
  by_cases h : s.type = [] <;> simp [h]

theorem setInSection_append (done : List ConfigSection) (cur : ConfigSection) (k v : Str) :
    setInSection (done ++ [cur]) done.length k v = done ++ [cur.set k v] := by
  induction done with
  | nil => simp [setInSection]
  | cons a done ih => simp [setInSection, ih]

theorem set_of_fresh (r : ConfigSection) (k v : Str) (es : List ConfigEntry)
    (hnd : ((r.entries ++ (k, v) :: es).map Prod.fst).Nodup) :
    r.set k v = { r with entries := r.entries ++ [(k, v)] } := by
  apply (section_miss r k ?_).2.2.2.1 v
  intro e he hek
  simp only [List.map_append, List.map_cons] at hnd
  have := (List.nodup_append.1 hnd).2.2
  exact this (List.mem_map.2 ⟨e, he, rfl⟩) (by simp [hek])

theorem loadLoop_entries_root (es : List ConfigEntry) (r : ConfigSection)
    (ss : List ConfigSection) (n : Nat) (msg : ValidationMessage)
    (hes : ∀ e ∈ es, StoredEntry e.1 e.2) (hnd : ((r.entries ++ es).map Prod.fst).Nodup) :
    ∃ n', ConfigFile.loadLoop (es.map entryLine)
        { file := { root := r, sections := ss }, section_ := -1, linenumber := n, msg := msg } =
      (true, { file := { root := { r with entries := r.entries ++ es }, sections := ss },
               section_ := -1, linenumber := n', msg := msg }) := by
  induction es generalizing r n with
  | nil => exact ⟨n, by simp [loadLoop_nil]⟩
  | cons e es ih =>
    obtain ⟨k, v⟩ := e
    have hkv : StoredEntry k v := hes (k, v) (List.mem_cons_self _ _)
    have hrest : ∀ e ∈ es, StoredEntry e.1 e.2 := fun e he => hes e (List.mem_cons_of_mem _ he)
    have hset := set_of_fresh r k v es hnd
    have hl := loadLine_entryLine
      { file := { root := r, sections := ss }, section_ := -1, linenumber := n, msg := msg } k v hkv
    have hput : LoadState.put
        { file := { root := r, sections := ss }, section_ := -1, linenumber := n, msg := msg } k v =
        { file := { root := { r with entries := r.entries ++ [(k, v)] }, sections := ss },
          section_ := -1, linenumber := n + 1, msg := msg } := by
      simp [LoadState.put, hset]
    rw [hput] at hl
    obtain ⟨n', hn'⟩ := ih { r with entries := r.entries ++ [(k, v)] } (n + 1) hrest
      (by simpa using hnd)
    refine ⟨n', ?_⟩
    rw [List.map_cons, loadLoop_cons_true _ _ _ _ hl, hn']
    simp

theorem loadLoop_entries_section (es : List ConfigEntry) (root cur : ConfigSection)
    (done : List ConfigSection) (n : Nat) (msg : ValidationMessage)
    (hes : ∀ e ∈ es, StoredEntry e.1 e.2) (hnd : ((cur.entries ++ es).map Prod.fst).Nodup) :
    ∃ n', ConfigFile.loadLoop (es.map entryLine)
        { file := { root := root, sections := done ++ [cur] }, section_ := done.length,
          linenumber := n, msg := msg } =
      (true, { file := { root := root,
                         sections := done ++ [{ cur with entries := cur.entries ++ es }] },
               section_ := done.length, linenumber := n', msg := msg }) := by
  induction es generalizing cur n with
  | nil => exact ⟨n, by simp [loadLoop_nil]⟩
  | cons e es ih =>
    obtain ⟨k, v⟩ := e
    have hkv : StoredEntry k v := hes (k, v) (List.mem_cons_self _ _)
    have hrest : ∀ e ∈ es, StoredEntry e.1 e.2 := fun e he => hes e (List.mem_cons_of_mem _ he)
    have hset := set_of_fresh cur k v es hnd
    have hl := loadLine_entryLine
      { file := { root := root, sections := done ++ [cur] }, section_ := done.length,
        linenumber := n, msg := msg } k v hkv
    have hne : ((done.length : Nat) : Int) ≠ -1 := by omega
    have hput : LoadState.put
        { file := { root := root, sections := done ++ [cur] }, section_ := done.length,
          linenumber := n, msg := msg } k v =
        { file := { root := root,
                    sections := done ++ [{ cur with entries := cur.entries ++ [(k, v)] }] },
          section_ := done.length, linenumber := n + 1, msg := msg } := by
      simp [LoadState.put, hne, setInSection_append, hset]
    rw [hput] at hl
    obtain ⟨n', hn'⟩ := ih { cur with entries := cur.entries ++ [(k, v)] } (n + 1) hrest
      (by simpa using hnd)
    refine ⟨n', ?_⟩
    rw [List.map_cons, loadLoop_cons_true _ _ _ _ hl, hn']
    simp

/-- The block of one section, read after the sections `done`, appends the
reparsed section. -/
theorem loadLoop_block (s root : ConfigSection) (done : List ConfigSection) (n : Nat)
    (msg : ValidationMessage) (hname : namePart (headerBody s) ≠ [])
    (hs : LoadedEntries s) :
    ∃ n', ConfigFile.loadLoop (sectionBlock s)
        { file := { root := root, sections := done }, section_ := (done.length : Int) - 1,
          linenumber := n, msg := msg } =
      (true, { file := { root := root, sections := done ++ [reparsed s] },
               section_ := ((done ++ [reparsed s]).length : Int) - 1,
               linenumber := n', msg := msg }) := by
  have hl := loadLine_header
    { file := { root := root, sections := done }, section_ := (done.length : Int) - 1,
      linenumber := n, msg := msg } (headerBody s)
  rw [if_neg hname, ← headerLine_eq] at hl
  have hopen : LoadState.openSection
      { file := { root := root, sections := done }, section_ := (done.length : Int) - 1,
        linenumber := n, msg := msg } (typePart (headerBody s)) (namePart (headerBody s)) =
      { file := { root := root,
                  sections := done ++ [ConfigSection.new (typePart (headerBody s))
                    (namePart (headerBody s))] },
        section_ := done.length, linenumber := n + 1, msg := msg } := by
    simp [LoadState.openSection]
  rw [hopen] at hl
  obtain ⟨n', hn'⟩ := loadLoop_entries_section s.entries root
    (ConfigSection.new (typePart (headerBody s)) (namePart (headerBody s))) done (n + 1) msg
    hs.1 (by simpa [ConfigSection.new, ConfigSection.keys] using hs.2)
  refine ⟨n' + 1, ?_⟩
  unfold sectionBlock
  rw [loadLoop_cons_true _ _ _ _ hl, loadLoop_append_true _ _ _ _ hn',
    loadLoop_cons_true _ _ _ _ (loadLine_empty _), loadLoop_nil]
  simp [LoadState.skip, reparsed, ConfigSection.new]

theorem loadLoop_blocks (ss : List ConfigSection) (root : ConfigSection)
    (done : List ConfigSection) (n : Nat) (msg : ValidationMessage)
    (h : ∀ s ∈ ss, namePart (headerBody s) ≠ [] ∧ LoadedEntries s) :
    ∃ n', ConfigFile.loadLoop ((ss.map sectionBlock).flatten)
        { file := { root := root, sections := done }, section_ := (done.length : Int) - 1,
          linenumber := n, msg := msg } =
      (true, { file := { root := root, sections := done ++ ss.map reparsed },
               section_ := ((done ++ ss.map reparsed).length : Int) - 1,
               linenumber := n', msg := msg }) := by
  induction ss generalizing done n with
  | nil => exact ⟨n, by simp [loadLoop_nil]⟩
  | cons s ss ih =>
    obtain ⟨hname, hs⟩ := h s (List.mem_cons_self _ _)
    obtain ⟨n1, h1⟩ := loadLoop_block s root done n msg hname hs
    obtain ⟨n2, h2⟩ := ih (done ++ [reparsed s]) n1
      (fun x hx => h x (List.mem_cons_of_mem _ hx))
    refine ⟨n2, ?_⟩
    rw [List.map_cons, List.flatten_cons, loadLoop_append_true _ _ _ _ h1, h2]
    simp

theorem loadLoop_rootBlock (r : ConfigSection) (n : Nat) (msg : ValidationMessage)
    (ht : r.type = []) (hn : r.name = []) (hr : LoadedEntries r) :
    ∃ n', ConfigFile.loadLoop (rootBlock r)
        { file := ConfigFile.new, section_ := -1, linenumber := n, msg := msg } =
      (true, { file := { root := r, sections := [] }, section_ := -1,
               linenumber := n', msg := msg }) := by
  have hnew : r = { ConfigSection.new [] [] with entries := (ConfigSection.new [] []).entries ++ r.entries } := by
    cases r
    simp only [ConfigSection.new] at ht hn ⊢
    simp [ht, hn]
  unfold rootBlock
  by_cases he : r.entries = []
  · rw [if_pos he]
    refine ⟨n, ?_⟩
    rw [loadLoop_nil, hnew, he]
    simp [ConfigFile.new, ConfigSection.new]
  · rw [if_neg he]
    obtain ⟨n', hn'⟩ := loadLoop_entries_root r.entries (ConfigSection.new [] []) [] n msg hr.1
      (by simpa [ConfigSection.new, ConfigSection.keys] using hr.2)
    refine ⟨n' + 1, ?_⟩
    have h0 : ({ file := ConfigFile.new, section_ := -1, linenumber := n, msg := msg } : LoadState) =
        { file := { root := ConfigSection.new [] [], sections := [] }, section_ := -1,
          linenumber := n, msg := msg } := rfl
    rw [h0, loadLoop_append_true _ _ _ _ hn', loadLoop_cons_true _ _ _ _ (loadLine_empty _),
      loadLoop_nil, ← hnew]
    simp [LoadState.skip]

end config
end mapcrafter

namespace mapcrafter
namespace config

/-! ### The file that `load` leaves, and its written text -/

theorem set_loadedEntries (s : ConfigSection) (k v : Str) (hs : LoadedEntries s)
    (hkv : StoredEntry k v) : LoadedEntries (s.set k v) := by
  refine ⟨?_, set_keys_nodup s k v hs.2⟩
  rcases section_cases s k with hm | ⟨pre, v0, post, he, hpre⟩
  · rw [(section_miss s k hm).2.2.2.1 v]
    intro e hmem
    rcases List.mem_append.1 hmem with hmem | hmem
    · exact hs.1 e hmem
    · simp only [List.mem_singleton] at hmem
      subst hmem; exact hkv
  · rw [(section_hit s k v0 pre post he hpre).2.2.2.1 v]
    intro e hmem
    simp only [List.mem_append, List.mem_cons] at hmem
    rcases hmem with hmem | rfl | hmem
    · exact hs.1 e (by rw [he]; simp [hmem])
    · exact hkv
    · exact hs.1 e (by rw [he]; simp [hmem])

/-- Whatever the text, `load` leaves a file of the loaded form in an initially
empty `ConfigFile`. -/
theorem load_loadedFile (inp : Str) (msg : ValidationMessage) :
    LoadedFile (ConfigFile.new.load inp msg).2.1 := by
  unfold ConfigFile.load
  refine loadLoop_invariant LoadedFile ?_ ?_ ?_ (getlines inp) (mem_getlines_no_newline inp) _ ?_
  · intro g t n hg hh
    refine ⟨hg.1, ?_⟩
    intro s hs
    rcases List.mem_append.1 hs with hs | hs
    · exact hg.2 s hs
    · simp only [List.mem_singleton] at hs
      subst hs
      exact ⟨hh, by simp [ConfigSection.new], by simp [ConfigSection.new, ConfigSection.keys]⟩
  · intro g k v hg hkv
    refine ⟨⟨?_, ?_, set_loadedEntries g.root k v hg.1.2.2 hkv⟩, hg.2⟩
    · show (g.root.set k v).type = []
      rw [(set_type_name g.root k v).1]; exact hg.1.1
    · show (g.root.set k v).name = []
      rw [(set_type_name g.root k v).2]; exact hg.1.2.1
  · intro g i k v hg hkv
    refine ⟨hg.1, ?_⟩
    exact setInSection_forall (fun s => StoredHeader s.type s.name ∧ LoadedEntries s) k v
      (fun s hs => by
        show StoredHeader (s.set k v).type (s.set k v).name ∧ LoadedEntries (s.set k v)
        rw [(set_type_name s k v).1, (set_type_name s k v).2]
        exact ⟨hs.1, set_loadedEntries s k v hs.2 hkv⟩) g.sections i hg.2
  · exact ⟨⟨rfl, rfl, by simp [ConfigSection.new, ConfigFile.new],
      by simp [ConfigSection.new, ConfigFile.new, ConfigSection.keys]⟩,
      by simp [ConfigFile.new]⟩

theorem entryLine_no_newline (e : ConfigEntry) (h : StoredEntry e.1 e.2) :
    '\n' ∉ entryLine e := by
  obtain ⟨_, _, hk, hv, _, _, _⟩ := h
  intro hm
  simp only [entryLine, List.mem_append, List.mem_cons, List.not_mem_nil, or_false] at hm
  rcases hm with (hm | hm | hm | hm) | hm
  · exact hk hm
  · exact absurd hm (by decide)
  · exact absurd hm (by decide)
  · exact absurd hm (by decide)
  · exact hv hm

theorem headerLine_no_newline (s : ConfigSection) (h : StoredHeader s.type s.name) :
    '\n' ∉ headerLine s := by
  obtain ⟨_, _, ht, hn⟩ := h
  intro hm
  unfold headerLine at hm
  by_cases h0 : s.type = []
  · simp only [h0, if_true, List.mem_append, List.mem_cons, List.not_mem_nil, or_false] at hm
    rcases hm with (hm | hm) | hm
    · exact absurd hm (by decide)
    · exact hn hm
    · exact absurd hm (by decide)
  · simp only [h0, if_false, List.mem_append, List.mem_cons, List.not_mem_nil, or_false] at hm
    rcases hm with (((hm | hm) | hm) | hm) | hm
    · exact absurd hm (by decide)
    · exact ht hm
    · exact absurd hm (by decide)
    · exact hn hm
    · exact absurd hm (by decide)

theorem writtenLines_no_newline (f : ConfigFile) (hf : LoadedFile f) :
    ∀ l ∈ writtenLines f, '\n' ∉ l := by
  intro l hl
  unfold writtenLines at hl
  rcases List.mem_append.1 hl with hl | hl
  · unfold rootBlock at hl
    by_cases he : f.root.entries = []
    · simp [he] at hl
    · rw [if_neg he] at hl
      rcases List.mem_append.1 hl with hl | hl
      · obtain ⟨e, he', rfl⟩ := List.mem_map.1 hl
        exact entryLine_no_newline e (hf.1.2.2.1 e he')
      · simp only [List.mem_singleton] at hl
        subst hl; simp
  · obtain ⟨blk, hblk, hlb⟩ := List.mem_flatten.1 hl
    obtain ⟨s, hs, rfl⟩ := List.mem_map.1 hblk
    have hs' : s ∈ f.sections := (List.mem_filter.1 hs).1
    obtain ⟨hh, hes⟩ := hf.2 s hs'
    unfold sectionBlock at hlb
    rcases List.mem_cons.1 hlb with rfl | hlb
    · exact headerLine_no_newline s hh
    · rcases List.mem_append.1 hlb with hlb | hlb
      · obtain ⟨e, he', rfl⟩ := List.mem_map.1 hlb
        exact entryLine_no_newline e (hes.1 e he')
      · simp only [List.mem_singleton] at hlb
        subst hlb; simp

/-- Loading the written text of a loaded file into an empty `ConfigFile`
succeeds, provided the name part of every header is non-empty, and yields the
same root and the reparsed sections. -/
theorem load_written (f : ConfigFile) (hf : LoadedFile f)
    (hname : ∀ s ∈ f.sections, namePart (headerBody s) ≠ []) (msg : ValidationMessage) :
    ConfigFile.new.load (f.write []).2 msg =
      (true, { root := f.root, sections := f.sections.map reparsed }, msg) := by
  have hnamed : ∀ s ∈ f.sections, s.name ≠ [] := fun s hs => (hf.2 s hs).1.1
  rw [write_eq f [] hf.1.2.1]
  simp only [List.nil_append]
  unfold ConfigFile.load
  rw [getlines_unlines _ (writtenLines_no_newline f hf), writtenLines,
    filter_named_eq f.sections hnamed]
  obtain ⟨n1, h1⟩ := loadLoop_rootBlock f.root 0 msg hf.1.1 hf.1.2.1 hf.1.2.2
  obtain ⟨n2, h2⟩ := loadLoop_blocks f.sections f.root [] n1 msg
    (fun s hs => ⟨hname s hs, (hf.2 s hs).2⟩)
  have h2' : ConfigFile.loadLoop ((f.sections.map sectionBlock).flatten)
      { file := { root := f.root, sections := [] }, section_ := -1, linenumber := n1,
        msg := msg } =
      (true, { file := { root := f.root, sections := f.sections.map reparsed },
               section_ := ((f.sections.map reparsed).length : Int) - 1,
               linenumber := n2, msg := msg }) := by
    simpa using h2
  rw [loadLoop_append_true _ _ _ _ h1, h2']

/-- Splitting a header body that does not start with a colon and putting the
parts together again gives the body back. -/
theorem headerBody_reparsed (s : ConfigSection) (h : (headerBody s).head? ≠ some ':') :
    headerBody (reparsed s) = headerBody s := by
  by_cases hc : ':' ∈ headerBody s
  · obtain ⟨a, b, hab, ha⟩ := exists_split_of_mem (headerBody s) ':' hc
    have ha0 : a ≠ [] := by
      intro e
      subst e
      rw [hab] at h
      exact h rfl
    unfold reparsed
    rw [hab, typePart_split a b ha, namePart_split a b ha]
    simp [headerBody, ha0]
  · unfold reparsed
    rw [typePart_of_not_mem _ hc, namePart_of_not_mem _ hc]
    simp [headerBody]

theorem headerBody_of_type (s : ConfigSection) (ht : s.type ≠ []) (hcolon : ':' ∉ s.type) :
    (headerBody s).head? ≠ some ':' ∧ namePart (headerBody s) = s.name ∧
      typePart (headerBody s) = s.type := by
  have hb : headerBody s = s.type ++ ':' :: s.name := by simp [headerBody, ht]
  rw [hb, namePart_split _ _ hcolon, typePart_split _ _ hcolon]
  refine ⟨?_, rfl, rfl⟩
  obtain ⟨a, t, hat⟩ := List.exists_cons_of_ne_nil ht
  rw [hat]
  intro e
  simp at e
  apply hcolon
  rw [hat, e]; simp

theorem sectionBlock_reparsed (s : ConfigSection) (h : (headerBody s).head? ≠ some ':') :
    sectionBlock (reparsed s) = sectionBlock s := by
  unfold sectionBlock
  rw [headerLine_eq, headerLine_eq, headerBody_reparsed s h]
  rfl

end config
end mapcrafter

namespace mapcrafter
namespace config

/-! ### Lookups after `set` and `remove` -/

theorem firstValue_of_miss (key : Str) (es : List ConfigEntry) (h : ∀ e ∈ es, e.1 ≠ key) :
    firstValue key es = none := by
  induction es with
  | nil => rfl
  | cons e es ih =>
    have he : e.1 ≠ key := h e (List.mem_cons_self _ _)
    simp only [firstValue, he, if_false]
    exact ih (fun x hx => h x (List.mem_cons_of_mem _ hx))

theorem firstValue_of_hit (key v : Str) (pre post : List ConfigEntry)
    (h : ∀ e ∈ pre, e.1 ≠ key) : firstValue key (pre ++ (key, v) :: post) = some v := by
  induction pre with
  | nil => simp [firstValue]
  | cons e pre ih =>
    have he : e.1 ≠ key := h e (List.mem_cons_self _ _)
    rw [List.cons_append]
    simp only [firstValue, he, if_false]
    exact ih (fun x hx => h x (List.mem_cons_of_mem _ hx))

theorem firstValue_skip (key k x : Str) (a b : List ConfigEntry) (hk : k ≠ key) :
    firstValue key (a ++ (k, x) :: b) = firstValue key (a ++ b) := by
  induction a with
  | nil => simp [firstValue, hk]
  | cons e a ih =>
    rw [List.cons_append, List.cons_append]
    simp only [firstValue, ih]

/-- The member `get` returns the value of the first entry with the key, and the
default when there is none. -/
theorem get_eq_firstValue (s : ConfigSection) (key d : Str) :
    s.get key d = (firstValue key s.entries).getD d := by
  rcases section_cases s key with hm | ⟨pre, v0, post, hs, hpre⟩
  · rw [(section_miss s key hm).2.2.1 d, firstValue_of_miss key s.entries hm]; rfl
  · rw [(section_hit s key v0 pre post hs hpre).2.2.1 d, hs, firstValue_of_hit key v0 pre post hpre]
    rfl

theorem get_set_other (s : ConfigSection) (k v k' d : Str) (h : k' ≠ k) :
    (s.set k v).get k' d = s.get k' d := by
  have hk : k ≠ k' := fun e => h e.symm
  rw [get_eq_firstValue, get_eq_firstValue]
  rcases section_cases s k with hm | ⟨pre, v0, post, hs, hpre⟩
  · rw [(section_miss s k hm).2.2.2.1 v]
    simp only
    rw [firstValue_skip k' k v s.entries [] hk, List.append_nil]
  · rw [(section_hit s k v0 pre post hs hpre).2.2.2.1 v, hs]
    simp only
    rw [firstValue_skip k' k v pre post hk, firstValue_skip k' k v0 pre post hk]

theorem filter_ne_of_miss (k : Str) (es : List ConfigEntry) (h : ∀ e ∈ es, e.1 ≠ k) :
    es.filter (fun e => e.1 ≠ k) = es := by
  apply List.filter_eq_self.2
  intro e he
  simpa using h e he

/-- In a section with pairwise different keys, `remove` leaves the entries with
another key, in their order. -/
theorem remove_entries_of_nodup (s : ConfigSection) (k : Str) (hnd : s.keys.Nodup) :
    (s.remove k).entries = s.entries.filter (fun e => e.1 ≠ k) ∧
      ∀ e ∈ (s.remove k).entries, e.1 ≠ k := by
  rcases section_cases s k with hm | ⟨pre, v0, post, hs, hpre⟩
  · rw [(section_miss s k hm).2.2.2.2, filter_ne_of_miss k s.entries hm]
    exact ⟨rfl, hm⟩
  · have hpost : ∀ e ∈ post, e.1 ≠ k := by
      intro e he hek
      simp only [ConfigSection.keys, hs, List.map_append, List.map_cons] at hnd
      have h2 := (List.nodup_append.1 hnd).2.1
      have h3 := (List.nodup_cons.1 h2).1
      exact h3 (List.mem_map.2 ⟨e, he, hek⟩)
    rw [(section_hit s k v0 pre post hs hpre).2.2.2.2, hs]
    simp only [List.filter_append, List.filter_cons, ne_eq, not_true_eq_false, decide_False,
      Bool.false_eq_true, if_false]
    rw [filter_ne_of_miss k pre hpre, filter_ne_of_miss k post hpost]
    refine ⟨rfl, ?_⟩
    intro e he
    rcases List.mem_append.1 he with he | he
    · exact hpre e he
    · exact hpost e he

theorem remove_type_name (s : ConfigSection) (key : Str) :
    (s.remove key).type = s.type ∧ (s.remove key).name = s.name := by
  by_cases h : s.getEntryIndex key = -1 <;> simp [ConfigSection.remove, h]

end config
end mapcrafter

namespace mapcrafter
namespace config

/-! ### Failing loads, skipped lines and single lines -/

theorem loadLine_true_msg (st st' : LoadState) (line : Str) (hnl : '\n' ∉ line)
    (h : ConfigFile.loadLine st line = (true, st')) : st'.msg = st.msg := by
  rcases loadLine_cases st line hnl with hl | ⟨t, n, _, hl⟩ | ⟨k, v, _, hl⟩ | ⟨text, hl⟩
  · rw [hl] at h
    simp only [Prod.mk.injEq, true_and] at h
    rw [← h]; rfl
  · rw [hl] at h
    simp only [Prod.mk.injEq, true_and] at h
    rw [← h]; rfl
  · rw [hl] at h
    simp only [Prod.mk.injEq, true_and] at h
    rw [← h]
    unfold LoadState.put
    split <;> rfl
  · rw [hl] at h
    simp at h

theorem loadLoop_true_msg (lines : List Str) (hnl : ∀ l ∈ lines, '\n' ∉ l) (st st' : LoadState)
    (h : ConfigFile.loadLoop lines st = (true, st')) : st'.msg = st.msg := by
  induction lines generalizing st with
  | nil =>
    rw [loadLoop_nil] at h
    simp only [Prod.mk.injEq, true_and] at h
    rw [h]
  | cons line rest ih =>
    rcases hl : ConfigFile.loadLine st line with ⟨ok, st1⟩
    cases ok with
    | true =>
      rw [loadLoop_cons_true line rest st st1 hl] at h
      rw [ih (fun l hl' => hnl l (List.mem_cons_of_mem _ hl')) st1 h]
      exact loadLine_true_msg st st1 line (hnl line (List.mem_cons_self _ _)) hl
    | false =>
      rw [loadLoop_cons_false line rest st st1 hl] at h
      simp at h

/-- When the loop returns `false`, the object is the one that the lines before
the first defective line with visible text produce. -/
theorem loadLoop_false_prefix (lines : List Str) (st : LoadState)
    (h : (ConfigFile.loadLoop lines st).1 = false) :
    ∃ i line st1, lines.get? i = some line ∧ Defective line ∧ ¬ WhitespaceOnly line ∧
      (∀ j l, j < i → lines.get? j = some l → ¬ (Defective l ∧ ¬ WhitespaceOnly l)) ∧
      ConfigFile.loadLoop (lines.take i) st = (true, st1) ∧
      (ConfigFile.loadLoop lines st).2.file = st1.file := by
  induction lines generalizing st with
  | nil => rw [loadLoop_nil] at h; simp at h
  | cons line rest ih =>
    rcases loadLine_verdict st line with ⟨hnd, hok, _⟩ | ⟨hd, hnw, hcases⟩
    · rcases hl : ConfigFile.loadLine st line with ⟨ok, st1⟩
      rw [hl] at hok
      simp only at hok
      subst hok
      rw [loadLoop_cons_true line rest st st1 hl] at h ⊢
      obtain ⟨i, l, st2, hget, hdl, hwl, hfirst, hpre, hfile⟩ := ih st1 h
      refine ⟨i + 1, l, st2, by simpa using hget, hdl, hwl, ?_, ?_, hfile⟩
      · intro j l' hj hget'
        cases j with
        | zero =>
          simp at hget'
          subst hget'
          exact hnd
        | succ j => exact hfirst j l' (by omega) (by simpa using hget')
      · rw [List.take_succ_cons, loadLoop_cons_true line _ st st1 hl]
        exact hpre
    · refine ⟨0, line, st, rfl, hd, hnw, fun j l hj _ => absurd hj (Nat.not_lt_zero j), rfl, ?_⟩
      rcases hcases with ⟨_, hl⟩ | ⟨_, hl⟩ | ⟨_, hl⟩ <;>
        rw [loadLoop_cons_false line rest st _ hl] <;> rfl

/-- An empty line inserted at any line position changes neither the return value
nor the object that `load` leaves. -/
theorem empty_line_ignored (f : ConfigFile) (t t' : Str) (pre post : List Str)
    (msg msg' : ValidationMessage)
    (ht : getlines t = pre ++ post) (ht' : getlines t' = pre ++ [] :: post) :
    (f.load t' msg').1 = (f.load t msg).1 ∧ (f.load t' msg').2.1 = (f.load t msg).2.1 := by
  simp only [ConfigFile.load, ht, ht']
  obtain ⟨h1, h2, h3⟩ := loadLoop_data pre
    { file := f, section_ := -1, linenumber := 0, msg := msg' }
    { file := f, section_ := -1, linenumber := 0, msg := msg } rfl rfl
  rcases hp' : ConfigFile.loadLoop pre { file := f, section_ := -1, linenumber := 0, msg := msg' }
    with ⟨ok', st'⟩
  rcases hp : ConfigFile.loadLoop pre { file := f, section_ := -1, linenumber := 0, msg := msg }
    with ⟨ok, st⟩
  rw [hp, hp'] at h1 h2 h3
  simp only at h1 h2 h3
  subst h1
  cases ok' with
  | false =>
    rw [loadLoop_append_false pre _ _ _ hp', loadLoop_append_false pre _ _ _ hp]
    exact ⟨rfl, h2⟩
  | true =>
    rw [loadLoop_append_true pre _ _ _ hp', loadLoop_append_true pre _ _ _ hp,
      loadLoop_cons_true [] post st' _ (loadLine_empty st')]
    obtain ⟨g1, g2, _⟩ := loadLoop_data post st'.skip st h2 h3
    exact ⟨g1, g2⟩

theorem getlines_single (line : Str) (hne : line ≠ []) (hnl : '\n' ∉ line) :
    getlines line = [line] := by
  induction line with
  | nil => exact absurd rfl hne
  | cons c cs ih =>
    have hc : c ≠ '\n' := fun e => hnl (by simp [e])
    have hcs : '\n' ∉ cs := fun e => hnl (by simp [e])
    rw [getlines, if_neg hc]
    by_cases h0 : cs = []
    · subst h0; simp [getlines]
    · rw [ih h0 hcs]

/-- A section of a loaded file whose header is not ambiguous is read back as it
is. -/
theorem reparsed_eq_self (s : ConfigSection) (hcolon : ':' ∉ s.type)
    (h : s.type = [] → ':' ∉ s.name) : reparsed s = s := by
  by_cases ht : s.type = []
  · have hb : headerBody s = s.name := by simp [headerBody, ht]
    unfold reparsed
    rw [hb, typePart_of_not_mem _ (h ht), namePart_of_not_mem _ (h ht), ← ht]
  · obtain ⟨_, h2, h3⟩ := headerBody_of_type s ht hcolon
    unfold reparsed
    rw [h2, h3]

theorem removeSection_of_hasSection (f : ConfigFile) (type name : Str)
    (h : f.hasSection type name = true) : f.removeSection type name = some f := by
  unfold ConfigFile.hasSection at h
  unfold ConfigFile.removeSection
  have hi : f.getSectionIndex type name ≠ -1 := by simpa using h
  simp [hi]

end config
end mapcrafter

namespace mapcrafter
namespace config

/-! ## The claims -/

/-- C1 (write/load idempotence) fails as stated: `load` accepts the header line
`[::b]` as a section with empty type and name `:b`; `write` prints it as `[:b]`;
loading that text gives a section named `b`, which `write` prints as `[b]`. -/
theorem write_load_not_idempotent :
    ConfigFile.new.load "[::b]\n".toList ValidationMessage.default =
      (true, { root := ConfigSection.new [] [], sections := [ConfigSection.new [] [':', 'b']] },
        ValidationMessage.default) ∧
    (ConfigFile.write
      { root := ConfigSection.new [] [], sections := [ConfigSection.new [] [':', 'b']] } []).2 =
      "[:b]\n\n".toList ∧
    ConfigFile.new.load "[:b]\n\n".toList ValidationMessage.default =
      (true, { root := ConfigSection.new [] [], sections := [ConfigSection.new [] ['b']] },
        ValidationMessage.default) ∧
    (ConfigFile.write
      { root := ConfigSection.new [] [], sections := [ConfigSection.new [] ['b']] } []).2 =
      "[b]\n\n".toList ∧
    "[b]\n\n".toList ≠ "[:b]\n\n".toList :=
  ⟨by decide, by decide, by decide, by decide, by decide⟩

/-- C1, amended.  Let `load` accept the text `t` into an empty `ConfigFile` `f`
in which no section with empty type has a name that starts with a colon or a
name whose first colon is its last character.  Then loading the text `w` written
by `f` into a fresh empty `ConfigFile` `g` succeeds, and `g` writes exactly `w`. -/
theorem write_load_idempotent (t : Str) (msg msg' : ValidationMessage) (f : ConfigFile)
    (hload : ConfigFile.new.load t msg = (true, f, msg'))
    (hsec : ∀ s ∈ f.sections, s.type = [] →
      s.name.head? ≠ some ':' ∧ namePart s.name ≠ [])
    (m : ValidationMessage) :
    ∃ g, ConfigFile.new.load (f.write []).2 m = (true, g, m) ∧
      (g.write []).1 = true ∧ (g.write []).2 = (f.write []).2 := by
  have hf : LoadedFile f := by
    have := load_loadedFile t msg
    rw [hload] at this
    exact this
  have hbody : ∀ s ∈ f.sections,
      (headerBody s).head? ≠ some ':' ∧ namePart (headerBody s) ≠ [] := by
    intro s hs
    by_cases ht : s.type = []
    · have hb : headerBody s = s.name := by simp [headerBody, ht]
      rw [hb]
      exact hsec s hs ht
    · obtain ⟨h1, h2, _⟩ := headerBody_of_type s ht (hf.2 s hs).1.2.1
      rw [h2]
      exact ⟨h1, (hf.2 s hs).1.1⟩
  refine ⟨{ root := f.root, sections := f.sections.map reparsed },
    load_written f hf (fun s hs => (hbody s hs).2) m, ?_⟩
  have hnamed : ∀ s ∈ f.sections, s.name ≠ [] := fun s hs => (hf.2 s hs).1.1
  have hnamed' : ∀ s ∈ f.sections.map reparsed, s.name ≠ [] := by
    intro s hs
    obtain ⟨s0, hs0, rfl⟩ := List.mem_map.1 hs
    exact (hbody s0 hs0).2
  have hblocks : (f.sections.map reparsed).map sectionBlock = f.sections.map sectionBlock := by
    rw [List.map_map]
    apply List.map_congr_left
    intro s hs
    exact sectionBlock_reparsed s (hbody s hs).1
  have hg := write_eq { root := f.root, sections := f.sections.map reparsed } [] hf.1.2.1
  rw [write_eq f [] hf.1.2.1, hg]
  simp only [writtenLines, filter_named_eq _ hnamed, filter_named_eq _ hnamed', hblocks,
    and_self]

/-- C1, amended, on a text with a root entry and a typed section. -/
theorem write_load_idempotent_witness :
    ∃ g, ConfigFile.new.load
        ((ConfigFile.mk (ConfigSection.mk [] [] [(['x'], ['1'])])
          [ConfigSection.mk ['a'] ['b'] [(['y'], ['2'])]]).write []).2
        ValidationMessage.default = (true, g, ValidationMessage.default) ∧
      (g.write []).1 = true ∧
      (g.write []).2 =
        ((ConfigFile.mk (ConfigSection.mk [] [] [(['x'], ['1'])])
          [ConfigSection.mk ['a'] ['b'] [(['y'], ['2'])]]).write []).2 :=
  write_load_idempotent "x=1\n[a:b]\n y = 2 \n".toList ValidationMessage.default
    ValidationMessage.default
    (ConfigFile.mk (ConfigSection.mk [] [] [(['x'], ['1'])])
      [ConfigSection.mk ['a'] ['b'] [(['y'], ['2'])]])
    (by decide) (by decide) ValidationMessage.default

/-- C2 (single-section parse).  For a newline-free header body `S` with a
non-empty name part, and a trimmed, newline-free key `K` and value `V`, the key
without equals sign and not starting with the comment character or an opening
bracket, loading the two lines `[S]` and `K = V` into an empty `ConfigFile`
returns `true`, keeps the root section empty and yields exactly one section: its
type is the type part of `S`, its name the name part of `S`, and its entry list
is `[(K, V)]`. -/
theorem single_section_parse (S K V : Str) (msg : ValidationMessage)
    (hS : '\n' ∉ S) (hname : namePart S ≠ []) (hK : Trimmed K) (hV : Trimmed V)
    (hKn : '\n' ∉ K) (hVn : '\n' ∉ V) (hKe : '=' ∉ K)
    (hK1 : K.head? ≠ some '#') (hK2 : K.head? ≠ some '[') :
    ConfigFile.new.load ('[' :: S ++ [']', '\n'] ++ K ++ [' ', '=', ' '] ++ V ++ ['\n']) msg =
      (true,
        { root := ConfigSection.new [] [],
          sections := [{ type := typePart S, name := namePart S, entries := [(K, V)] }] },
        msg) := by
  have htext : '[' :: S ++ [']', '\n'] ++ K ++ [' ', '=', ' '] ++ V ++ ['\n'] =
      unlines ['[' :: S ++ [']'], entryLine (K, V)] := by
    simp [unlines, entryLine]
  have hlines : getlines (unlines ['[' :: S ++ [']'], entryLine (K, V)]) =
      ['[' :: S ++ [']'], entryLine (K, V)] := by
    apply getlines_unlines
    intro l hl
    simp only [List.mem_cons, List.mem_singleton, List.not_mem_nil, or_false] at hl
    rcases hl with rfl | rfl
    · intro hm
      simp only [List.mem_append, List.mem_cons, List.mem_singleton, List.not_mem_nil,
        or_false] at hm
      rcases hm with (hm | hm) | hm
      · exact absurd hm (by decide)
      · exact hS hm
      · exact absurd hm (by decide)
    · intro hm
      simp only [entryLine, List.mem_append, List.mem_cons, List.not_mem_nil, or_false] at hm
      rcases hm with (hm | hm | hm | hm) | hm
      · exact hKn hm
      · exact absurd hm (by decide)
      · exact absurd hm (by decide)
      · exact absurd hm (by decide)
      · exact hVn hm
  have hentry : StoredEntry K V := ⟨hK, hV, hKn, hVn, hKe, hK1, hK2⟩
  rw [htext]
  unfold ConfigFile.load
  rw [hlines]
  have h1 := loadLine_header { file := ConfigFile.new, section_ := -1, linenumber := 0, msg := msg } S
  rw [if_neg hname] at h1
  rw [loadLoop_cons_true _ _ _ _ h1, loadLoop_cons_true _ _ _ _ (loadLine_entryLine _ K V hentry),
    loadLoop_nil]
  simp [LoadState.put, LoadState.openSection, ConfigFile.new, setInSection, ConfigSection.set,
    ConfigSection.getEntryIndex, getEntryIndexFrom, ConfigSection.new]

/-- C2 on the scenario text: one section of type `world` and name `earth` holding
`name = test`. -/
theorem single_section_parse_witness :
    ConfigFile.new.load "[world:earth]\nname = test\n".toList ValidationMessage.default =
      (true,
        { root := ConfigSection.new [] [],
          sections := [{ type := "world".toList, name := "earth".toList,
                         entries := [("name".toList, "test".toList)] }] },
        ValidationMessage.default) :=
  single_section_parse "world:earth".toList "name".toList "test".toList ValidationMessage.default
    (by decide) (by decide) ((trimmed_iff _).2 (by decide)) ((trimmed_iff _).2 (by decide))
    (by decide) (by decide) (by decide) (by decide) (by decide)

/-- C3 (lookup with default).  `has k` is false exactly when no entry has key
`k`; in that case `get k d` returns the default `d`; otherwise the entry list
splits at the first entry `(k, v)` with key `k` and `get k d` returns `v`
whatever the default is.  Hence `get k` hands back every default exactly when
`has k` is false.  Both members are `const` and are modelled as functions of the
section, which they leave as it is. -/
theorem get_default_or_first_value (s : ConfigSection) (k d : Str) :
    (s.has k = false ↔ ∀ e ∈ s.entries, e.1 ≠ k) ∧
    (s.has k = false → s.get k d = d) ∧
    (s.has k = true →
      ∃ pre v post, s.entries = pre ++ (k, v) :: post ∧ (∀ e ∈ pre, e.1 ≠ k) ∧
        ∀ d', s.get k d' = v) ∧
    ((∀ d', s.get k d' = d') ↔ s.has k = false) := by
  rcases section_cases s k with hm | ⟨pre, v0, post, hs, hpre⟩
  · obtain ⟨_, hhas, hget, _, _⟩ := section_miss s k hm
    refine ⟨⟨fun _ => hm, fun _ => hhas⟩, fun _ => hget d, ?_, ⟨fun _ => hhas, fun _ => hget⟩⟩
    intro h; rw [hhas] at h; cases h
  · obtain ⟨_, hhas, hget, _, _⟩ := section_hit s k v0 pre post hs hpre
    have hmem : (k, v0) ∈ s.entries := by rw [hs]; simp
    refine ⟨⟨?_, ?_⟩, ?_, fun _ => ⟨pre, v0, post, hs, hpre, hget⟩, ⟨?_, ?_⟩⟩
    · intro h; rw [hhas] at h; cases h
    · intro h; exact absurd rfl (h _ hmem)
    · intro h; rw [hhas] at h; cases h
    · intro h
      have h1 := h (v0 ++ ['x'])
      rw [hget] at h1
      have := congrArg List.length h1
      simp at this
    · intro h; rw [hhas] at h; cases h

/-- C3 on the section of the scenario: with the single entry `name = test`,
`get("missing", "x")` is `"x"`. -/
theorem get_default_or_first_value_witness :
    (ConfigSection.mk "world".toList "earth".toList [("name".toList, "test".toList)]).has
        "missing".toList = false ∧
      (ConfigSection.mk "world".toList "earth".toList [("name".toList, "test".toList)]).get
        "missing".toList "x".toList = "x".toList :=
  ⟨by decide,
    (get_default_or_first_value
      (ConfigSection.mk "world".toList "earth".toList [("name".toList, "test".toList)])
      "missing".toList "x".toList).2.1 (by decide)⟩

/-- C4 (key uniqueness, last set wins).  No two entries of a section built from
a fresh section by `set` and `remove` calls have the same key; directly after
`set(k, v)`, `get(k, d)` is `v` for every default `d`; and the root and every
section that `load` leaves in an initially empty `ConfigFile` have pairwise
different keys, whether `load` succeeds or not. -/
theorem keys_unique_last_set_wins :
    (∀ s, SectionReachable s → s.keys.Nodup) ∧
    (∀ (s : ConfigSection) (k v d : Str), (s.set k v).get k d = v) ∧
    (∀ (inp : Str) (msg : ValidationMessage),
      (ConfigFile.new.load inp msg).2.1.root.keys.Nodup ∧
        ∀ s ∈ (ConfigFile.new.load inp msg).2.1.sections, s.keys.Nodup) := by
  refine ⟨reachable_keys_nodup, get_set_same, ?_⟩
  intro inp msg
  exact loadLoop_sections_invariant (fun s => s.keys.Nodup)
    (fun t n _ => by simp [ConfigSection.keys, ConfigSection.new])
    (fun s k v hs _ => set_keys_nodup s k v hs)
    (getlines inp) (mem_getlines_no_newline inp) _
    ⟨by simp [ConfigSection.keys, ConfigSection.new, ConfigFile.new],
      by simp [ConfigFile.new]⟩

/-- C4 on a section built by three `set` calls and one `remove` call. -/
theorem keys_unique_last_set_wins_witness :
    (((((ConfigSection.new [] []).set ['a'] ['1']).set ['b'] ['2']).set ['a'] ['3']).remove
      ['b']).keys.Nodup :=
  keys_unique_last_set_wins.1 _
    (SectionReachable.remove _ _ (SectionReachable.set _ _ _ (SectionReachable.set _ _ _
      (SectionReachable.set _ _ _ (SectionReachable.new [] [])))))

/-- C5 (section uniqueness) fails through `load`: on the two header lines `[a]`
and `[a]` it returns `true` and appends two sections with the same type and the
same name to an empty `ConfigFile`, so a reachable `ConfigFile` holds two
sections with one identity. -/
theorem load_appends_duplicate_section :
    ConfigFile.new.load "[a]\n[a]\n".toList ValidationMessage.default =
      (true,
        { root := ConfigSection.new [] [],
          sections := [ConfigSection.new [] ['a'], ConfigSection.new [] ['a']] },
        ValidationMessage.default) ∧
    FileReachable (ConfigFile.new.load "[a]\n[a]\n".toList ValidationMessage.default).2.1 ∧
    ¬ (ConfigFile.new.load "[a]\n[a]\n".toList ValidationMessage.default).2.1.ids.Nodup :=
  ⟨by decide, FileReachable.load _ _ _ FileReachable.new, by decide⟩

/-- C6 (parse failure characterisation).  For an input without a line made of
whitespace only, `load` returns `false` if and only if some line is defective:
not empty, not a comment after trimming, and either starting with an opening
bracket without ending with a closing one, or a bracketed header with an empty
name part, or not starting with an opening bracket and without equals sign.  In
every other case `load` returns `true`. -/
theorem load_false_iff_defective (f : ConfigFile) (inp : Str) (msg : ValidationMessage)
    (hw : ∀ l ∈ getlines inp, ¬ WhitespaceOnly l) :
    ((f.load inp msg).1 = false ↔ ∃ l ∈ getlines inp, Defective l) ∧
    ((f.load inp msg).1 = true ↔ ¬ ∃ l ∈ getlines inp, Defective l) := by
  have key : (f.load inp msg).1 = false ↔ ∃ l ∈ getlines inp, Defective l := by
    unfold ConfigFile.load
    simp only
    rw [loadLoop_false_iff]
    constructor
    · rintro ⟨l, hl, hd, _⟩; exact ⟨l, hl, hd⟩
    · rintro ⟨l, hl, hd⟩; exact ⟨l, hl, hd, hw l hl⟩
  refine ⟨key, ?_⟩
  rw [← key]
  cases (f.load inp msg).1 <;> simp

/-- C6 on a text whose second line lacks the closing bracket. -/
theorem load_false_iff_defective_witness :
    (ConfigFile.new.load "a = 1\n[b\n".toList ValidationMessage.default).1 = false ↔
      ∃ l ∈ getlines "a = 1\n[b\n".toList, Defective l :=
  (load_false_iff_defective ConfigFile.new "a = 1\n[b\n".toList ValidationMessage.default
    (by decide)).1

/-- C7 (diagnostic and line number).  Whenever `load` returns `false`, the
diagnostic is an error, and there is a first defective line with visible text
(lines of whitespace only are accepted by `load` and are not counted as
defective), say the line with 1-based number `i + 1` among all lines of the
input: the text of the diagnostic is the text for the defect of that line,
`Expecting ']' at end of line N.`, `Invalid section name on line N.` or
`No '=' found on line N.`, where `N` is `i + 1` in decimal.  The three defects
exclude each other and the three texts are different for any line numbers. -/
theorem load_failure_diagnostic :
    (∀ (f : ConfigFile) (inp : Str) (msg : ValidationMessage),
      (f.load inp msg).1 = false →
      (f.load inp msg).2.2.type = MessageType.error ∧
      ∃ i line, (getlines inp).get? i = some line ∧ Defective line ∧ ¬ WhitespaceOnly line ∧
        (∀ j l, j < i → (getlines inp).get? j = some l →
          ¬ (Defective l ∧ ¬ WhitespaceOnly l)) ∧
        ((MissingBracket line ∧ (f.load inp msg).2.2 =
            ValidationMessage.error (expectingBracketText (i + 1))) ∨
          (EmptySectionName line ∧ (f.load inp msg).2.2 =
            ValidationMessage.error (invalidNameText (i + 1))) ∨
          (MissingEquals line ∧ (f.load inp msg).2.2 =
            ValidationMessage.error (noEqualsText (i + 1))))) ∧
    (∀ line, ¬ (MissingBracket line ∧ EmptySectionName line) ∧
      ¬ (MissingBracket line ∧ MissingEquals line) ∧
      ¬ (EmptySectionName line ∧ MissingEquals line)) ∧
    (∀ n m, expectingBracketText n ≠ invalidNameText m ∧
      expectingBracketText n ≠ noEqualsText m ∧ invalidNameText n ≠ noEqualsText m) ∧
    (∀ n, expectingBracketText n = "Expecting ']' at end of line ".toList ++ Nat.toDigits 10 n ++ ['.'] ∧
      invalidNameText n = "Invalid section name on line ".toList ++ Nat.toDigits 10 n ++ ['.'] ∧
      noEqualsText n = "No '=' found on line ".toList ++ Nat.toDigits 10 n ++ ['.']) := by
  refine ⟨?_, defects_exclusive, ?_, fun n => ⟨rfl, rfl, rfl⟩⟩
  · intro f inp msg h
    unfold ConfigFile.load at h ⊢
    simp only at h ⊢
    obtain ⟨i, line, hget, hd, hnw, hfirst, hmsg⟩ := loadLoop_false_message _ _ h
    simp only [Nat.zero_add] at hmsg
    refine ⟨?_, i, line, hget, hd, hnw, hfirst, hmsg⟩
    rcases hmsg with ⟨_, e⟩ | ⟨_, e⟩ | ⟨_, e⟩ <;> rw [e] <;> rfl
  · intro n m
    refine ⟨?_, ?_, ?_⟩ <;> intro e <;>
      simp [expectingBracketText, invalidNameText, noEqualsText] at e

/-- C7 on a text whose third line, after a comment and an empty line, has no
equals sign: the diagnostic names line 3. -/
theorem load_failure_diagnostic_witness :
    (ConfigFile.new.load "# c\n\nkey\n".toList ValidationMessage.default).2.2.type =
      MessageType.error ∧
    (ConfigFile.new.load "# c\n\nkey\n".toList ValidationMessage.default).2.2.message =
      "No '=' found on line 3.".toList :=
  ⟨(load_failure_diagnostic.1 ConfigFile.new "# c\n\nkey\n".toList ValidationMessage.default
      (by decide)).1, by decide⟩

/-- C8 (write-back format).  For a `ConfigFile` whose root section is the unnamed
section, `write` returns `true` and appends to the stream exactly the lines of
`writtenLines`, each ended by a newline: the root block (only if the root has an
entry, and without header line), then for every named section in stored order
its header line, its `key = value` lines and one empty line. -/
theorem write_format (f : ConfigFile) (out : Str) (hroot : f.root.name = []) :
    f.write out = (true, out ++ unlines (writtenLines f)) :=
  write_eq f out hroot

/-- C8 on a file with one root entry and two sections. -/
theorem write_format_witness :
    (ConfigFile.mk (ConfigSection.mk [] [] [(['x'], ['1'])])
        [ConfigSection.mk ['w'] ['e'] [(['k'], ['v'])], ConfigSection.mk [] ['c'] []]).write [] =
      (true, "x = 1\n\n[w:e]\nk = v\n\n[c]\n\n".toList) :=
  write_format
    (ConfigFile.mk (ConfigSection.mk [] [] [(['x'], ['1'])])
      [ConfigSection.mk ['w'] ['e'] [(['k'], ['v'])], ConfigSection.mk [] ['c'] []]) [] rfl

/-- C9 (comments are ignored).  Let the text `t'` have the lines of the text `t`
with one more line `c` inserted at any line position, where `c` starts with the
comment character.  Then `load`, on any `ConfigFile` and in particular on the
empty one, returns the same value for both texts and leaves the same root section
and the same section list. -/
theorem comment_line_ignored (f : ConfigFile) (t t' c : Str) (pre post : List Str)
    (msg msg' : ValidationMessage) (hc : c.head? = some '#')
    (ht : getlines t = pre ++ post) (ht' : getlines t' = pre ++ c :: post) :
    (f.load t' msg').1 = (f.load t msg).1 ∧ (f.load t' msg').2.1 = (f.load t msg).2.1 := by
  obtain ⟨rest, hrest⟩ : ∃ rest, c = '#' :: rest := by
    cases c with
    | nil => simp at hc
    | cons a rest => simp at hc; exact ⟨rest, by rw [hc]⟩
  have hcne : c ≠ [] := by rw [hrest]; simp
  have hctrim : trim c = '#' :: (trim c).tail := by
    have h := trim_head_of_cons '#' rest (by decide)
    rw [← hrest] at h
    cases htc : trim c with
    | nil => rw [htc] at h; simp at h
    | cons a r => rw [htc] at h; simp at h; simp [h]
  simp only [ConfigFile.load, ht, ht']
  obtain ⟨h1, h2, h3⟩ := loadLoop_data pre
    { file := f, section_ := -1, linenumber := 0, msg := msg' }
    { file := f, section_ := -1, linenumber := 0, msg := msg } rfl rfl
  rcases hp' : ConfigFile.loadLoop pre { file := f, section_ := -1, linenumber := 0, msg := msg' }
    with ⟨ok', st'⟩
  rcases hp : ConfigFile.loadLoop pre { file := f, section_ := -1, linenumber := 0, msg := msg }
    with ⟨ok, st⟩
  rw [hp, hp'] at h1 h2 h3
  simp only at h1 h2 h3
  subst h1
  cases ok' with
  | false =>
    rw [loadLoop_append_false pre _ _ _ hp', loadLoop_append_false pre _ _ _ hp]
    exact ⟨rfl, h2⟩
  | true =>
    rw [loadLoop_append_true pre _ _ _ hp', loadLoop_append_true pre _ _ _ hp,
      loadLoop_cons_true c post st' _ (loadLine_comment st' c _ hcne hctrim)]
    obtain ⟨g1, g2, _⟩ := loadLoop_data post st'.skip st h2 h3
    exact ⟨g1, g2⟩

/-- C9 on the scenario text with a comment line inserted after the header. -/
theorem comment_line_ignored_witness :
    (ConfigFile.new.load "[world:earth]\n# note\nname = test\n".toList
        ValidationMessage.default).1 =
      (ConfigFile.new.load "[world:earth]\nname = test\n".toList ValidationMessage.default).1 ∧
    (ConfigFile.new.load "[world:earth]\n# note\nname = test\n".toList
        ValidationMessage.default).2.1 =
      (ConfigFile.new.load "[world:earth]\nname = test\n".toList ValidationMessage.default).2.1 :=
  comment_line_ignored ConfigFile.new "[world:earth]\nname = test\n".toList
    "[world:earth]\n# note\nname = test\n".toList "# note".toList
    ["[world:earth]".toList] ["name = test".toList]
    ValidationMessage.default ValidationMessage.default (by decide) (by decide) (by decide)

/-- C10 (single unnamed section) fails as stated: the non-const `getSection`
called with an empty name on an empty `ConfigFile` stores a section without a
name, and `write` then skips it. -/
theorem getSection_stores_unnamed_section :
    FileReachable (ConfigFile.new.getSection [] []) ∧
    (ConfigFile.new.getSection [] []).getSections = [ConfigSection.new [] []] ∧
    (∃ s ∈ (ConfigFile.new.getSection [] []).getSections, s.isNamed = false) ∧
    (ConfigFile.new.getSection [] []).write [] = (true, []) :=
  ⟨FileReachable.getSection _ _ _ FileReachable.new, by decide, by decide, by decide⟩

/-- C10, amended.  In every `ConfigFile` built from the empty one by calls of
`load`, of `removeSection`, and of `getSection` and `addSection` for non-empty
section names, the root is unnamed and every stored section has a non-empty
name, so that `write` serialises the block of every stored section. -/
theorem stored_sections_named (f : ConfigFile) (h : FileReachableNamed f) :
    f.getRootSection.isNamed = false ∧
    (∀ s ∈ f.getSections, s.isNamed = true) ∧
    ∀ out, f.write out =
      (true, out ++ unlines (rootBlock f.root ++ (f.sections.map sectionBlock).flatten)) := by
  obtain ⟨hroot, hsec⟩ := reachableNamed_named f h
  refine ⟨by simp [ConfigFile.getRootSection, ConfigSection.isNamed, hroot], ?_, ?_⟩
  · intro s hs
    have := hsec s hs
    simpa [ConfigSection.isNamed] using this
  · intro out
    rw [write_eq f out hroot, writtenLines, filter_named_eq f.sections hsec]

/-- C10, amended, on a file built by `load` followed by `getSection`: `write`
serialises both stored sections. -/
theorem stored_sections_named_witness :
    ((ConfigFile.new.load "[a]\nk = v\n".toList ValidationMessage.default).2.1.getSection
      ['t'] ['n']).write [] = (true, "[a]\nk = v\n\n[t:n]\n\n".toList) :=
  (stored_sections_named _
    (FileReachableNamed.getSection _ ['t'] ['n']
      (FileReachableNamed.load _ _ _ FileReachableNamed.new) (by decide))).2.2 []

/-- C11 (ordered mapping, frame of `set`).  If the section has an entry with key
`k`, then `set(k, v)` keeps the length of the entry list and the key at every
position, and replaces only the value of the first entry with key `k` by `v`; if
it has none, the new entry list is the old one with `(k, v)` appended.  In both
cases `get(k', d)` is unchanged for every other key `k'`, and so are the type and
the name of the section. -/
theorem set_frame (s : ConfigSection) (k v : Str) :
    (s.has k = true →
      (s.set k v).entries.length = s.entries.length ∧ (s.set k v).keys = s.keys ∧
      ∃ pre v0 post, s.entries = pre ++ (k, v0) :: post ∧ (∀ e ∈ pre, e.1 ≠ k) ∧
        (s.set k v).entries = pre ++ (k, v) :: post) ∧
    (s.has k = false → (s.set k v).entries = s.entries ++ [(k, v)]) ∧
    (∀ k' d, k' ≠ k → (s.set k v).get k' d = s.get k' d) ∧
    (s.set k v).type = s.type ∧ (s.set k v).name = s.name := by
  refine ⟨?_, ?_, fun k' d h => get_set_other s k v k' d h, set_type_name s k v⟩
  · intro hhas
    rcases section_cases s k with hm | ⟨pre, v0, post, hs, hpre⟩
    · rw [(section_miss s k hm).2.1] at hhas; cases hhas
    · have hset := (section_hit s k v0 pre post hs hpre).2.2.2.1 v
      refine ⟨?_, ?_, pre, v0, post, hs, hpre, by rw [hset]⟩
      · rw [hset, hs]; simp
      · rw [hset]; simp [ConfigSection.keys, hs]
  · intro hhas
    rcases section_cases s k with hm | ⟨pre, v0, post, hs, hpre⟩
    · rw [(section_miss s k hm).2.2.2.1 v]
    · rw [(section_hit s k v0 pre post hs hpre).2.1] at hhas; cases hhas

/-- C11 on a section with the entries `a = 1`, `b = 2`: setting `b` keeps the
two keys in place. -/
theorem set_frame_witness :
    ((ConfigSection.mk [] ['s'] [(['a'], ['1']), (['b'], ['2'])]).set ['b'] ['3']).keys =
      (ConfigSection.mk [] ['s'] [(['a'], ['1']), (['b'], ['2'])]).keys :=
  ((set_frame (ConfigSection.mk [] ['s'] [(['a'], ['1']), (['b'], ['2'])]) ['b'] ['3']).1
    (by decide)).2.1

/-- C12 (entry removal).  For a section built from a fresh one by `set` and
`remove` calls: after `remove(k)`, `has(k)` is false and `get(k, d)` returns `d`;
the remaining entries are the former entries with a key other than `k`, in their
former order; the type and the name stay; and `remove(k)` leaves the section as
it is when it had no entry with key `k`. -/
theorem remove_entry (s : ConfigSection) (h : SectionReachable s) (k d : Str) :
    (s.remove k).has k = false ∧ (s.remove k).get k d = d ∧
    (s.remove k).entries = s.entries.filter (fun e => e.1 ≠ k) ∧
    (s.remove k).type = s.type ∧ (s.remove k).name = s.name ∧
    (s.has k = false → s.remove k = s) := by
  have hnd := reachable_keys_nodup s h
  obtain ⟨hent, hmiss⟩ := remove_entries_of_nodup s k hnd
  obtain ⟨_, hhas, hget, _, _⟩ := section_miss (s.remove k) k hmiss
  refine ⟨hhas, hget d, hent, (remove_type_name s k).1, (remove_type_name s k).2, ?_⟩
  intro hno
  rcases section_cases s k with hm | ⟨pre, v0, post, hs, hpre⟩
  · exact (section_miss s k hm).2.2.2.2
  · rw [(section_hit s k v0 pre post hs hpre).2.1] at hno; cases hno

/-- C12 on the section built by `set(a, 1)`, `set(b, 2)`, `set(c, 3)`: removing
`b` leaves `a = 1` and `c = 3`. -/
theorem remove_entry_witness :
    (((((ConfigSection.new [] []).set ['a'] ['1']).set ['b'] ['2']).set ['c'] ['3']).remove
      ['b']).entries = [(['a'], ['1']), (['c'], ['3'])] :=
  (remove_entry _
    (SectionReachable.set _ _ _ (SectionReachable.set _ _ _
      (SectionReachable.set _ _ _ (SectionReachable.new [] [])))) ['b'] []).2.2.1

/-- C14 (entries go to the section their header opened) fails on a `ConfigFile`
that already holds a section: `load` of the lines `[new]` and `k = v` appends
the section `new` at index 1 but sets the entry in the section at index 0, the
section `old` stored before the call; on an empty `ConfigFile` the same text sets
the entry in the section `new`. -/
theorem load_sets_entry_in_older_section :
    (ConfigFile.mk (ConfigSection.new [] []) [ConfigSection.new [] "old".toList]).load
        "[new]\nk = v\n".toList ValidationMessage.default =
      (true,
        { root := ConfigSection.new [] [],
          sections := [ConfigSection.mk [] "old".toList [(['k'], ['v'])],
                       ConfigSection.mk [] "new".toList []] },
        ValidationMessage.default) ∧
    ConfigFile.new.load "[new]\nk = v\n".toList ValidationMessage.default =
      (true,
        { root := ConfigSection.new [] [],
          sections := [ConfigSection.mk [] "new".toList [(['k'], ['v'])]] },
        ValidationMessage.default) :=
  ⟨by decide, by decide⟩

/-- C15 (key/value split).  For a non-empty line whose trimmed text is not a
comment or a header and splits at its first equals sign into `k` and `v`, the
loop of `load` goes on and sets the trimmed `k` to the trimmed `v` in the current
section; loaded alone into an empty `ConfigFile`, the line gives the root the
single entry `(trim k, trim v)`.  Later equals signs belong to `v`, and an empty
`v` is stored as the empty value. -/
theorem key_value_split (st : LoadState) (line k v : Str) (hne : line ≠ [])
    (ht : trim line = k ++ '=' :: v) (hk : '=' ∉ k)
    (h1 : (trim line).head? ≠ some '#') (h2 : (trim line).head? ≠ some '[') :
    ConfigFile.loadLine st line = (true, st.put (trim k) (trim v)) ∧
    (∀ msg, '\n' ∉ line →
      ConfigFile.new.load line msg =
        (true, { root := { type := [], name := [], entries := [(trim k, trim v)] },
                 sections := [] }, msg)) := by
  have hk1 : k.head? ≠ some '#' := by
    intro e
    apply h1
    rw [ht]
    cases k with
    | nil => simp at e
    | cons a k' => simpa using e
  have hk2 : k.head? ≠ some '[' := by
    intro e
    apply h2
    rw [ht]
    cases k with
    | nil => simp at e
    | cons a k' => simpa using e
  have hl := fun st' => loadLine_entry st' line k v hne ht hk hk1 hk2
  refine ⟨hl st, ?_⟩
  intro msg hnl
  unfold ConfigFile.load
  rw [getlines_single line hne hnl, loadLoop_cons_true _ _ _ _ (hl _), loadLoop_nil]
  simp [LoadState.put, ConfigFile.new, ConfigSection.new, ConfigSection.set,
    ConfigSection.getEntryIndex, getEntryIndexFrom]

/-- C15 on the lines `a = b=c` and `k =`: the first stores `a` with the value
`b=c`, the second stores `k` with the empty value. -/
theorem key_value_split_witness :
    ConfigFile.new.load "a = b=c".toList ValidationMessage.default =
      (true, { root := { type := [], name := [], entries := [(['a'], "b=c".toList)] },
               sections := [] }, ValidationMessage.default) ∧
    ConfigFile.new.load "k =".toList ValidationMessage.default =
      (true, { root := { type := [], name := [], entries := [(['k'], [])] },
               sections := [] }, ValidationMessage.default) :=
  ⟨(key_value_split (LoadState.mk ConfigFile.new (-1) 0 ValidationMessage.default)
      "a = b=c".toList "a ".toList " b=c".toList (by decide) (by decide) (by decide) (by decide)
      (by decide)).2 ValidationMessage.default (by decide),
   (key_value_split (LoadState.mk ConfigFile.new (-1) 0 ValidationMessage.default)
      "k =".toList "k ".toList [] (by decide) (by decide) (by decide) (by decide)
      (by decide)).2 ValidationMessage.default (by decide)⟩

/-- C16 (`removeSection` removes) fails: on a `ConfigFile` that holds the section
named `a`, `removeSection` for that section leaves the object as it is, so
`hasSection` is still true and the section count is the same. -/
theorem removeSection_keeps_section :
    (ConfigFile.mk (ConfigSection.new [] []) [ConfigSection.new [] ['a']]).hasSection [] ['a'] =
      true ∧
    (ConfigFile.mk (ConfigSection.new [] []) [ConfigSection.new [] ['a']]).removeSection [] ['a'] =
      some (ConfigFile.mk (ConfigSection.new [] []) [ConfigSection.new [] ['a']]) ∧
    (ConfigFile.mk (ConfigSection.new [] []) [ConfigSection.new [] ['a']]).removeSection [] ['b'] =
      none :=
  ⟨by decide, by decide, by decide⟩

/-- C17 (structural round trip) fails as stated: `load` accepts the header line
`[:a:b]` as a section with empty type and name `a:b`; `write` prints it as
`[a:b]`, and loading that text gives a section of type `a` and name `b`. -/
theorem round_trip_changes_section :
    ConfigFile.new.load "[:a:b]\n".toList ValidationMessage.default =
      (true, { root := ConfigSection.new [] [],
               sections := [ConfigSection.new [] "a:b".toList] },
        ValidationMessage.default) ∧
    (ConfigFile.write
      { root := ConfigSection.new [] [], sections := [ConfigSection.new [] "a:b".toList] } []).2 =
      "[a:b]\n\n".toList ∧
    ConfigFile.new.load "[a:b]\n\n".toList ValidationMessage.default =
      (true, { root := ConfigSection.new [] [], sections := [ConfigSection.new ['a'] ['b']] },
        ValidationMessage.default) ∧
    ConfigSection.new ['a'] ['b'] ≠ ConfigSection.new [] "a:b".toList :=
  ⟨by decide, by decide, by decide, by decide⟩

/-- C17, amended.  Let `load` accept the text `t` into an empty `ConfigFile` `f`
in which no section with empty type has a colon in its name.  Then loading the
text written by `f` into a fresh empty `ConfigFile` succeeds and gives `f` again:
the same root and the same sequence of sections, each with the same type, name
and entry list. -/
theorem structural_round_trip (t : Str) (msg msg' : ValidationMessage) (f : ConfigFile)
    (hload : ConfigFile.new.load t msg = (true, f, msg'))
    (hsec : ∀ s ∈ f.sections, s.type = [] → ':' ∉ s.name) (m : ValidationMessage) :
    ConfigFile.new.load (f.write []).2 m = (true, f, m) := by
  have hf : LoadedFile f := by
    have := load_loadedFile t msg
    rw [hload] at this
    exact this
  have hre : ∀ s ∈ f.sections, reparsed s = s :=
    fun s hs => reparsed_eq_self s (hf.2 s hs).1.2.1 (hsec s hs)
  have hname : ∀ s ∈ f.sections, namePart (headerBody s) ≠ [] := by
    intro s hs
    have h1 : (reparsed s).name = namePart (headerBody s) := rfl
    rw [← h1, hre s hs]
    exact (hf.2 s hs).1.1
  have hmap : f.sections.map reparsed = f.sections := by
    conv_rhs => rw [← List.map_id f.sections]
    exact List.map_congr_left (fun s hs => by simpa using hre s hs)
  rw [load_written f hf hname m, hmap]

/-- C17, amended, on a text with a root entry, a typed and an untyped section. -/
theorem structural_round_trip_witness :
    ConfigFile.new.load
        ((ConfigFile.mk (ConfigSection.mk [] [] [(['x'], ['1'])])
          [ConfigSection.mk ['w'] ['e'] [(['k'], ['v'])], ConfigSection.mk [] ['c'] []]).write []).2
        ValidationMessage.default =
      (true,
        ConfigFile.mk (ConfigSection.mk [] [] [(['x'], ['1'])])
          [ConfigSection.mk ['w'] ['e'] [(['k'], ['v'])], ConfigSection.mk [] ['c'] []],
        ValidationMessage.default) :=
  structural_round_trip "x = 1\n[w:e]\nk=v\n[c]\n".toList ValidationMessage.default
    ValidationMessage.default
    (ConfigFile.mk (ConfigSection.mk [] [] [(['x'], ['1'])])
      [ConfigSection.mk ['w'] ['e'] [(['k'], ['v'])], ConfigSection.mk [] ['c'] []])
    (by decide) (by decide) ValidationMessage.default

/-- C18 (blank lines are ignored) fails for a line of spaces and tabs: inserted
before the line `a = 1`, it makes `load` store one more entry, with empty key and
empty value, in the root section. -/
theorem whitespace_line_stores_entry :
    ConfigFile.new.load "a = 1\n".toList ValidationMessage.default =
      (true, { root := { type := [], name := [], entries := [(['a'], ['1'])] },
               sections := [] }, ValidationMessage.default) ∧
    ConfigFile.new.load " \t\na = 1\n".toList ValidationMessage.default =
      (true, { root := { type := [], name := [], entries := [([], []), (['a'], ['1'])] },
               sections := [] }, ValidationMessage.default) :=
  ⟨by decide, by decide⟩

/-- C19 (atomic failure) fails as stated: on the lines `a = 1` and `[b`, `load`
returns `false` on an empty `ConfigFile` and leaves the entry `a = 1` in its
root section. -/
theorem failed_load_keeps_entries :
    ConfigFile.new.load "a = 1\n[b\n".toList ValidationMessage.default =
      (false, { root := { type := [], name := [], entries := [(['a'], ['1'])] },
                sections := [] },
        ValidationMessage.error "Expecting ']' at end of line 2.".toList) ∧
    ({ root := { type := [], name := [], entries := [(['a'], ['1'])] }, sections := [] } :
      ConfigFile) ≠ ConfigFile.new :=
  ⟨by decide, by decide⟩

/-- C19, amended.  When `load` returns `false`, there is a first defective line
with visible text, and the root section and the section list after the call are
those that a successful `load` of the lines before that line leaves: what the
accepted lines before the defective line stored stays, nothing of the defective
line or of a later line is stored. -/
theorem failed_load_keeps_prefix (f : ConfigFile) (inp : Str) (msg : ValidationMessage)
    (h : (f.load inp msg).1 = false) :
    ∃ i line, (getlines inp).get? i = some line ∧ Defective line ∧ ¬ WhitespaceOnly line ∧
      (∀ j l, j < i → (getlines inp).get? j = some l →
        ¬ (Defective l ∧ ¬ WhitespaceOnly l)) ∧
      f.load (unlines ((getlines inp).take i)) msg = (true, (f.load inp msg).2.1, msg) := by
  unfold ConfigFile.load at h
  simp only at h
  obtain ⟨i, line, st1, hget, hd, hnw, hfirst, hpre, hfile⟩ := loadLoop_false_prefix _ _ h
  refine ⟨i, line, hget, hd, hnw, hfirst, ?_⟩
  have hnl : ∀ l ∈ (getlines inp).take i, '\n' ∉ l :=
    fun l hl => mem_getlines_no_newline inp l (List.mem_of_mem_take hl)
  have hmsg := loadLoop_true_msg _ hnl _ _ hpre
  unfold ConfigFile.load
  simp only
  rw [getlines_unlines _ hnl, hpre, hfile, hmsg]

/-- C19, amended, on the lines `a = 1` and `[b`: the failed `load` leaves what the
line `a = 1` alone loads. -/
theorem failed_load_keeps_prefix_witness :
    ConfigFile.new.load "a = 1\n".toList ValidationMessage.default =
      (true, (ConfigFile.new.load "a = 1\n[b\n".toList ValidationMessage.default).2.1,
        ValidationMessage.default) := by
  obtain ⟨i, line, hget, hd, _, _, hload⟩ :=
    failed_load_keeps_prefix ConfigFile.new "a = 1\n[b\n".toList ValidationMessage.default
      (by decide)
  have hlines : getlines "a = 1\n[b\n".toList = ["a = 1".toList, "[b".toList] := by decide
  rw [hlines] at hget hload
  match i, hget, hload with
  | 0, hget, _ =>
    have hline : line = "a = 1".toList := by simpa using hget.symm
    subst hline
    rcases hd.2.2 with h | ⟨body, hb, _⟩ | h
    · exact absurd h.1 (by decide)
    · have hh : (trim "a = 1".toList).head? = some '[' := by rw [hb]; rfl
      exact absurd hh (by decide)
    · exact absurd (by decide : '=' ∈ trim "a = 1".toList) h.2
  | 1, _, hload => exact hload
  | n + 2, hget, _ => simp at hget

end config
end mapcrafter
